import Mathlib

/-!
Shallow embedding of the feast recipe-normalization core
(src-tauri/src/parser/{ingredients,duration,jsonld,mod}.rs,
src-tauri/src/utils/units.rs, src-tauri/src/http/mod.rs).

Conventions of the embedding:
* Rust `f64` is modelled as `ℚ` (exact arithmetic; the source only parses
  decimal strings and performs `+ * /` on the results).
* Rust `i64` parsing is modelled on `ℤ` with the explicit range check of
  `str::parse::<i64>` (values `> 2^63 - 1` fail to parse); overflowing
  accumulation is tracked by an explicit flag.
* Rust strings are modelled as `List Char`; byte offsets are recomputed
  from UTF-8 character sizes where the source slices at byte indices.
  A slice that does not fall on a character boundary is a Rust panic and
  is modelled as `none`.
* `str::to_lowercase` is modelled per character: ASCII letters, plus the
  non-ASCII code points whose Unicode lowercase is entirely or partly
  ASCII and therefore observable by the source's ASCII lookup tables
  (U+212A KELVIN SIGN -> "k", U+212B ANGSTROM SIGN -> U+00E5,
  U+0130 LATIN CAPITAL LETTER I WITH DOT ABOVE -> "i" ++ U+0307).
  Other characters are left unchanged.
* `html_escape::decode_html_entities` is modelled on the basic entity
  set (`&amp; &lt; &gt; &quot; &#39; &apos; &nbsp;`); the crate decodes
  more (all named entities and numeric character references), so the
  model is only used where the two provably agree: on inputs without
  `&` both are the identity, and every universally quantified theorem
  about decoded input hypothesises an `&`-free input.
-/

attribute [local semireducible] Rat.mul Rat.add Rat.inv Rat.sub Rat.ofScientific

/-- UTF-8 byte length of a character (as Rust `char::len_utf8`). -/
def utf8Len (c : Char) : Nat :=
  if c.toNat < 0x80 then 1
  else if c.toNat < 0x800 then 2
  else if c.toNat < 0x10000 then 3
  else 4

/-- Code points with the Unicode White_Space property (Rust `char::is_whitespace`). -/
def wsCodes : List Nat :=
  [0x9, 0xA, 0xB, 0xC, 0xD, 0x20, 0x85, 0xA0, 0x1680,
   0x2000, 0x2001, 0x2002, 0x2003, 0x2004, 0x2005, 0x2006, 0x2007,
   0x2008, 0x2009, 0x200A, 0x2028, 0x2029, 0x202F, 0x205F, 0x3000]

/-- Models Rust `char::is_whitespace`. -/
def rustIsWs (c : Char) : Bool := wsCodes.contains c.toNat

/-- The ASCII uppercase-to-lowercase table. -/
def upperLower : List (Char × Char) :=
  [('A', 'a'), ('B', 'b'), ('C', 'c'), ('D', 'd'), ('E', 'e'), ('F', 'f'), ('G', 'g'), ('H', 'h'), ('I', 'i'), ('J', 'j'), ('K', 'k'), ('L', 'l'), ('M', 'm'), ('N', 'n'), ('O', 'o'), ('P', 'p'), ('Q', 'q'), ('R', 'r'), ('S', 's'), ('T', 't'), ('U', 'u'), ('V', 'v'), ('W', 'w'), ('X', 'x'), ('Y', 'y'), ('Z', 'z')]

/-- Models Rust `str::to_lowercase` on one character (see the header comment
for the modelled character ranges). -/
def rustCharLower (c : Char) : List Char :=
  match upperLower.lookup c with
  | some o => [o]
  | none =>
    if c.toNat = 0x212A then [('k')]
    else if c.toNat = 0x212B then [Char.ofNat 0xE5]
    else if c.toNat = 0x130 then [('i'), Char.ofNat 0x307]
    else [c]

/-- Models Rust `str::to_lowercase`. -/
def rustToLower (l : List Char) : List Char := l.flatMap rustCharLower

/-- Models Rust `str::trim_start`. -/
def trimLeft (l : List Char) : List Char := l.dropWhile rustIsWs

/-- Models Rust `str::trim_end`. -/
def trimRight (l : List Char) : List Char := (l.reverse.dropWhile rustIsWs).reverse

/-- Models Rust `str::trim`. -/
def rustTrim (l : List Char) : List Char := trimRight (trimLeft l)

/-- Entity table of the `decode_html_entities` model: what follows a `&`,
with the decoded character and the remaining input (first match wins). -/
def entityStep : List Char → Option (Char × List Char)
  | 'a' :: 'm' :: 'p' :: ';' :: rest => some ('&', rest)
  | 'l' :: 't' :: ';' :: rest => some ('<', rest)
  | 'g' :: 't' :: ';' :: rest => some ('>', rest)
  | 'q' :: 'u' :: 'o' :: 't' :: ';' :: rest => some ('"', rest)
  | '#' :: '3' :: '9' :: ';' :: rest => some (Char.ofNat 39, rest)
  | 'a' :: 'p' :: 'o' :: 's' :: ';' :: rest => some (Char.ofNat 39, rest)
  | 'n' :: 'b' :: 's' :: 'p' :: ';' :: rest => some (Char.ofNat 0xA0, rest)
  | _ => none

/-- Fuel-indexed scanning loop of the `decode_html_entities` model: at a
`&` the entity table is consulted (consuming at least four characters),
any other character is copied.  Every step consumes at least one
character, so fuel equal to the input length is sufficient and the
zero-fuel fallback is unreachable. -/
def decodeAux : Nat → List Char → List Char
  | 0, l => l
  | _ + 1, [] => []
  | fuel + 1, c :: cs =>
    if c = ('&') then
      match entityStep cs with
      | some (d, rest) => d :: decodeAux fuel rest
      | none => c :: decodeAux fuel cs
    else c :: decodeAux fuel cs

/-- Models `html_escape::decode_html_entities` on the basic entity set
(see the header comment; identity on `&`-free input, as the crate is). -/
def decodeHtmlChars (l : List Char) : List Char := decodeAux l.length l

/-- Numeric value of a run of ASCII digits. -/
def digitsVal (l : List Char) : Nat :=
  l.foldl (fun a c => a * 10 + (c.toNat - 48)) 0

/-- Split a character list at every occurrence of `sep`
(models Rust `str::split(sep)`). -/
def splitOnChar (sep : Char) : List Char → List (List Char)
  | [] => [[]]
  | c :: cs =>
    if c = sep then [] :: splitOnChar sep cs
    else
      match splitOnChar sep cs with
      | h :: t => (c :: h) :: t
      | [] => [[c]]

/-- Models Rust `str::split_whitespace` (splits on whitespace runs,
discards empty fragments). -/
def splitWs (l : List Char) : List (List Char) :=
  (l.foldr
    (fun c acc =>
      if rustIsWs c then [] :: acc
      else
        match acc with
        | h :: t => (c :: h) :: t
        | [] => [[c]])
    []).filter (fun w => !w.isEmpty)

/-- Index of the first occurrence of a character (models Rust `str::find`,
with the byte index recast as a character index; every use in the source
searches for an ASCII character, so the two agree on which character is hit). -/
def firstIdxOf (x : Char) : List Char → Option Nat
  | [] => none
  | c :: cs => if c = x then some 0 else (firstIdxOf x cs).map (· + 1)

/-- Models Rust `f64::from_str` on the fragment of inputs reachable in the
source (optional leading minus, digits, at most one dot; the source never
feeds it exponents, `inf`, `NaN` or a plus sign). -/
def parseF64 (l : List Char) : Option ℚ :=
  let p : ℚ × List Char :=
    if l.head? = some ('-') then (-1, l.tail) else (1, l)
  match splitOnChar ('.') p.2 with
  | [d] =>
    if d ≠ [] ∧ d.all Char.isDigit then some (p.1 * digitsVal d) else none
  | [a, b] =>
    if (a ++ b) ≠ [] ∧ (a ++ b).all Char.isDigit then
      some (p.1 * ((digitsVal a : ℚ) + (digitsVal b : ℚ) / 10 ^ b.length))
    else none
  | _ => none

/-- Models `parse_fraction` from parser/ingredients.rs. -/
def parse_fraction (l : List Char) : ℚ :=
  match splitOnChar ('/') l with
  | [a, b] =>
    let num := (parseF64 (rustTrim a)).getD 0
    let den := (parseF64 (rustTrim b)).getD 1
    if den ≠ 0 then num / den else 0
  | _ => 0

/-- Branches of `parse_number_string` past the range check (mixed number,
simple fraction, plain number), on an already-trimmed input. -/
def pnsCore (s : List Char) : ℚ :=
  match splitWs s with
  | [p0, p1] => (parseF64 p0).getD 0 + parse_fraction p1
  | _ =>
    if s.contains ('/') then parse_fraction s
    else (parseF64 s).getD 0

/-- Models `parse_number_string` from parser/ingredients.rs.  The source
recurses on the part before the first dash (a range "3-4" keeps "3"); since
that part contains no dash, the recursive call is exactly `pnsCore` of its
trimmed argument, which is inlined here so the definition is structurally
executable. -/
def parse_number_string (l : List Char) : ℚ :=
  let s := rustTrim l
  match firstIdxOf ('-') s with
  | some (j + 1) => pnsCore (rustTrim (s.take (j + 1)))
  | _ => pnsCore s

/-- Character class collected by the quantity scanner
(digits, `/`, `.`, `-`). -/
def numChar (c : Char) : Bool :=
  c.isDigit || c = ('/') || c = ('.') || c = ('-')

/-- Main collection loop of `parse_quantity`: returns the collected number
text and the remaining input.  The `found` flag mirrors `found_number`;
a whitespace character is consumed only when a number has been seen and
the immediately following character is an ASCII digit. -/
def pqGo : List Char → Bool → (List Char × List Char)
  | [], _ => ([], [])
  | c :: cs, found =>
    if numChar c then
      let r := pqGo cs true
      (c :: r.1, r.2)
    else if rustIsWs c && found then
      match cs with
      | d :: _ =>
        if d.isDigit then
          let r := pqGo cs true
          (c :: r.1, r.2)
        else ([], c :: cs)
      | [] => ([], [c])
    else ([], c :: cs)

/-- Models `parse_quantity` from parser/ingredients.rs. -/
def parse_quantity (l : List Char) : ℚ × List Char :=
  let l1 := l.dropWhile rustIsWs
  let r := pqGo l1 false
  if r.1.isEmpty then (0, l) else (parse_number_string r.1, r.2)

/-- Unit vocabulary of `parse_unit`, in source order. -/
def unitsList : List String :=
  ["cups", "cup", "c",
   "tablespoons", "tablespoon", "tbsp", "tbs", "tb",
   "teaspoons", "teaspoon", "tsp", "ts",
   "fluid ounces", "fluid ounce", "fl oz",
   "milliliters", "milliliter", "ml",
   "liters", "liter", "l",
   "pints", "pint", "pt",
   "quarts", "quart", "qt",
   "gallons", "gallon", "gal",
   "pounds", "pound", "lbs", "lb",
   "ounces", "ounce", "oz",
   "kilograms", "kilogram", "kg",
   "grams", "gram", "g",
   "cloves", "clove", "slices", "slice", "pieces", "piece",
   "cans", "can", "bunches", "bunch", "heads", "head",
   "stalks", "stalk", "sprigs", "sprig",
   "packages", "package", "pkg", "pinches", "pinch",
   "dashes", "dash",
   "large", "medium", "small"]

/-- Word-boundary test of `parse_unit`: end of string, whitespace or comma. -/
def boundaryOk (nc : Option Char) : Bool :=
  match nc with
  | none => true
  | some c => rustIsWs c || c = (',')

/-- Split a character list after exactly `n` UTF-8 bytes (models Rust string
slicing `&input[..n]` / `&input[n..]`); `none` models the byte-boundary
panic when `n` is not a character boundary (or exceeds the string). -/
def byteSplit : List Char → Nat → Option (List Char × List Char)
  | l, 0 => some ([], l)
  | [], _ + 1 => none
  | c :: cs, n + 1 =>
    if utf8Len c ≤ n + 1 then
      (byteSplit cs (n + 1 - utf8Len c)).map (fun p => (c :: p.1, p.2))
    else none

/-- Loop body of `parse_unit` over the unit vocabulary.  Outcomes:
`none` when no vocabulary term matches, `some none` when a term matches
the lowercased text but slicing the original input at the term's byte
length panics, `some (some (u, rest))` on a successful match. -/
def parse_unit_go (input lower : List Char) : List String → Option (Option (List Char × List Char))
  | [] => none
  | u :: rest =>
    let ul := u.toList
    if ul.isPrefixOf lower then
      if boundaryOk (input.get? ul.length) then some (byteSplit input ul.length)
      else parse_unit_go input lower rest
    else parse_unit_go input lower rest

/-- Fuel-indexed body of `parse_unit`.  Every recursive step of the source
(skipping a parenthesized aside) shortens the string by at least one
character, so fuel equal to the length of the argument is sufficient and
the zero-fuel fallback (reached only with an empty argument, which never
recurses) is unreachable. -/
def parse_unitAux : Nat → List Char → Option (List Char × List Char)
  | 0, l =>
    let input := rustTrim l
    match parse_unit_go input (rustToLower input) unitsList with
    | some r => r
    | none => some ([], input)
  | fuel + 1, l =>
    let input := rustTrim l
    match parse_unit_go input (rustToLower input) unitsList with
    | some r => r
    | none =>
      match input with
      | '(' :: _ =>
        match firstIdxOf (')') input with
        | some j => parse_unitAux fuel (trimLeft (input.drop (j + 1)))
        | none => some ([], input)
      | _ => some ([], input)

/-- Models `parse_unit` from parser/ingredients.rs; `none` is the
byte-boundary panic. -/
def parse_unit (l : List Char) : Option (List Char × List Char) :=
  parse_unitAux l.length l

/-- Parsed ingredient record (parser/mod.rs `ParsedIngredient`). -/
structure ParsedIngredient where
  quantity : ℚ
  unit : String
  name : String
deriving DecidableEq, Repr

/-- Models `parse_ingredient` from parser/ingredients.rs; `none` is a panic. -/
def parseIngredientChars (l : List Char) : Option ParsedIngredient :=
  let input := rustTrim (decodeHtmlChars l)
  let qr := parse_quantity input
  match parse_unit (rustTrim qr.2) with
  | some (u, nm) => some ⟨qr.1, u.asString, (rustTrim nm).asString⟩
  | none => none

/-- String-level wrapper of `parseIngredientChars`. -/
def parse_ingredient (s : String) : Option ParsedIngredient :=
  parseIngredientChars s.toList

/-! Duration parser (parser/duration.rs). -/

/-- Greatest `i64` value. -/
def i64Max : Int := 9223372036854775807

/-- Is `n` representable as an `i64`? -/
def inI64 (n : Int) : Bool := decide (-(2 ^ 63) ≤ n) && decide (n < 2 ^ 63)

/-- Models `str::parse::<i64>` on the digit-only strings the source feeds it
(no sign; empty or out-of-range input fails). -/
def parseI64Digits (l : List Char) : Option Int :=
  if l ≠ [] ∧ l.all Char.isDigit then
    if (digitsVal l : Int) ≤ i64Max then some ((digitsVal l : Int)) else none
  else none

/-- Scanning loop of `parse_iso8601_duration`: `cur` is `current_num`,
the accumulated minutes are exact (`ℤ`); the `Bool` records whether any
`i64` intermediate (`num * 60` or a running sum) left the `i64` range,
which in the Rust source is an overflow (panic in debug, wrap in release). -/
def durationGo : List Char → List Char → Int → Bool → (Int × Bool)
  | [], _, minutes, ov => (minutes, ov)
  | c :: rest, cur, minutes, ov =>
    if c.isDigit then durationGo rest (cur ++ [c]) minutes ov
    else
      let num := (parseI64Digits cur).getD 0
      match c with
      | 'H' =>
        durationGo rest [] (minutes + num * 60)
          (ov || !inI64 (num * 60) || !inI64 (minutes + num * 60))
      | 'M' => durationGo rest [] (minutes + num) (ov || !inI64 (minutes + num))
      | 'S' => durationGo rest [] minutes ov
      | _ => durationGo rest [] minutes ov

/-- Models `parse_iso8601_duration` from parser/duration.rs together with its
overflow flag.  `starts_with("PT") || starts_with("P")` is equivalent to the
first character being `P`; a following `T` is skipped. -/
def durationRun (s : String) : Int × Bool :=
  match s.toList with
  | 'P' :: rest =>
    match rest with
    | 'T' :: r2 => durationGo r2 [] 0 false
    | _ => durationGo rest [] 0 false
  | _ => (0, false)

/-- Models `parse_iso8601_duration` (minute total). -/
def parse_iso8601_duration (s : String) : Int := (durationRun s).1

/-! Unit conversion and aggregation (utils/units.rs). -/

/-- Unit categories (utils/units.rs `UnitCategory`). -/
inductive UnitCategory where
  | Volume
  | Weight
  | Count
  | Other
deriving DecidableEq, Repr

/-- Models `str::to_lowercase` on a `String`. -/
def rustToLowerStr (s : String) : String := (rustToLower s.toList).asString

/-- Volume units of `get_unit_category`. -/
def volumeUnits : List String :=
  ["cup", "cups", "c",
   "tablespoon", "tablespoons", "tbsp", "tbs",
   "teaspoon", "teaspoons", "tsp",
   "ml", "milliliter", "milliliters",
   "l", "liter", "liters",
   "fl oz", "fluid ounce", "fluid ounces",
   "pint", "pints", "pt",
   "quart", "quarts", "qt",
   "gallon", "gallons", "gal"]

/-- Weight units of `get_unit_category`. -/
def weightUnits : List String :=
  ["g", "gram", "grams",
   "kg", "kilogram", "kilograms",
   "oz", "ounce", "ounces",
   "lb", "lbs", "pound", "pounds"]

/-- Count units of `get_unit_category`. -/
def countUnits : List String :=
  ["", "whole", "piece", "pieces",
   "clove", "cloves", "slice", "slices",
   "can", "cans", "bunch", "bunches",
   "head", "heads", "stalk", "stalks",
   "sprig", "sprigs"]

/-- Models `get_unit_category` from utils/units.rs. -/
def get_unit_category (unit : String) : UnitCategory :=
  let ul := rustToLowerStr unit
  if volumeUnits.contains ul then .Volume
  else if weightUnits.contains ul then .Weight
  else if countUnits.contains ul then .Count
  else .Other

/-- Conversion factors of `get_conversion_factor` (volume to ml, weight to g). -/
def factorTable : List (String × ℚ) :=
  [("ml", 1), ("milliliter", 1), ("milliliters", 1),
   ("l", 1000), ("liter", 1000), ("liters", 1000),
   ("tsp", 4.929), ("teaspoon", 4.929), ("teaspoons", 4.929),
   ("tbsp", 14.787), ("tbs", 14.787), ("tablespoon", 14.787), ("tablespoons", 14.787),
   ("fl oz", 29.574), ("fluid ounce", 29.574), ("fluid ounces", 29.574),
   ("cup", 236.588), ("cups", 236.588), ("c", 236.588),
   ("pint", 473.176), ("pints", 473.176), ("pt", 473.176),
   ("quart", 946.353), ("quarts", 946.353), ("qt", 946.353),
   ("gallon", 3785.41), ("gallons", 3785.41), ("gal", 3785.41),
   ("g", 1), ("gram", 1), ("grams", 1),
   ("kg", 1000), ("kilogram", 1000), ("kilograms", 1000),
   ("oz", 28.3495), ("ounce", 28.3495), ("ounces", 28.3495),
   ("lb", 453.592), ("lbs", 453.592), ("pound", 453.592), ("pounds", 453.592)]

/-- Models `get_conversion_factor` from utils/units.rs. -/
def get_conversion_factor (unit : String) : Option ℚ :=
  factorTable.lookup (rustToLowerStr unit)

/-- Normalization table of `normalize_unit` (alias to canonical display form). -/
def normTable : List (String × String) :=
  [("c", "cup"), ("cups", "cup"),
   ("tbs", "tbsp"), ("tablespoons", "tbsp"),
   ("teaspoons", "tsp"),
   ("milliliters", "ml"), ("milliliter", "ml"),
   ("liters", "L"), ("liter", "L"),
   ("fluid ounces", "fl oz"), ("fluid ounce", "fl oz"), ("fl oz", "fl oz"),
   ("pints", "pint"), ("pt", "pint"),
   ("quarts", "quart"), ("qt", "quart"),
   ("gallons", "gallon"), ("gal", "gallon"),
   ("grams", "g"), ("gram", "g"),
   ("kilograms", "kg"), ("kilogram", "kg"),
   ("ounces", "oz"), ("ounce", "oz"),
   ("pounds", "lb"), ("pound", "lb"), ("lbs", "lb"),
   ("pieces", ""), ("piece", "")]

/-- Models `normalize_unit` from utils/units.rs (unrecognized units
normalize to their lowercased form). -/
def normalize_unit (unit : String) : String :=
  let ul := rustToLowerStr unit
  (normTable.lookup ul).getD ul

/-- Models `convert_quantity` from utils/units.rs. -/
def convert_quantity (quantity : ℚ) (from_unit to_unit : String) : Option ℚ :=
  let fromCat := get_unit_category from_unit
  let toCat := get_unit_category to_unit
  if fromCat ≠ toCat then none
  else if fromCat = .Count ∨ fromCat = .Other then
    if normalize_unit from_unit = normalize_unit to_unit then some quantity else none
  else
    match get_conversion_factor from_unit, get_conversion_factor to_unit with
    | some ff, some tf => some (quantity * ff / tf)
    | _, _ => none

/-- Aggregated quantity record (utils/units.rs `AggregatedQuantity`). -/
structure AggregatedQuantity where
  quantity : ℚ
  unit : String
  is_converted : Bool
deriving DecidableEq, Repr

/-- Insertion-ordered association-list update used to model
`by_category.entry(cat).or_default().push(x)`. -/
def pushPair (cat : UnitCategory) (x : ℚ × String) :
    List (UnitCategory × List (ℚ × String)) → List (UnitCategory × List (ℚ × String))
  | [] => [(cat, [x])]
  | (k, xs) :: rest =>
    if k = cat then (k, xs ++ [x]) :: rest else (k, xs) :: pushPair cat x rest

/-- Insertion-ordered association-list update used to model
`by_unit.entry(u).or_default() += q`. -/
def addQty (u : String) (q : ℚ) : List (String × ℚ) → List (String × ℚ)
  | [] => [(u, q)]
  | (k, v) :: rest =>
    if k = u then (k, v + q) :: rest else (k, v) :: addQty u q rest

/-- Insertion-ordered association-list update used to model
`counts.entry(u).or_default() += 1`. -/
def bumpCount (u : String) : List (String × Nat) → List (String × Nat)
  | [] => [(u, 1)]
  | (k, c) :: rest =>
    if k = u then (k, c + 1) :: rest else (k, c) :: bumpCount u rest

/-- Models `Iterator::max_by_key` on counts: of several equal maxima the
last one encountered wins (as documented for `max_by_key`). -/
def maxByCountLast (l : List (String × Nat)) : Option (String × Nat) :=
  l.foldl
    (fun best p =>
      match best with
      | none => some p
      | some b => if b.2 ≤ p.2 then some p else best)
    none

/-- Models `find_best_target_unit` from utils/units.rs.  `ordT` models the
iteration order of the `HashMap` over the counts: Rust's `HashMap` iterates
in an arbitrary, run-dependent order, so the model takes the order as a
parameter; theorems constrain it to permutations of the insertion order. -/
def find_best_target_unit (ordT : List (String × Nat) → List (String × Nat))
    (items : List (ℚ × String)) : String :=
  let counts := items.foldl (fun acc p => bumpCount (normalize_unit p.2) acc) []
  ((maxByCountLast (ordT counts)).map Prod.fst).getD ""

/-- Models `aggregate_quantities` from utils/units.rs.  `ordC`, `ordU` and
`ordT` model the run-dependent iteration orders of the three `HashMap`s
(`by_category`, `by_unit`, `counts`); theorems constrain them to
permutations of the insertion order. -/
def aggregate_quantities
    (ordC : List (UnitCategory × List (ℚ × String)) → List (UnitCategory × List (ℚ × String)))
    (ordU : List (String × ℚ) → List (String × ℚ))
    (ordT : List (String × Nat) → List (String × Nat))
    (items : List (ℚ × String)) : List AggregatedQuantity :=
  if items.isEmpty then []
  else
    let byCategory := items.foldl (fun acc p => pushPair (get_unit_category p.2) p acc) []
    (ordC byCategory).flatMap (fun cg =>
      if cg.1 = .Count ∨ cg.1 = .Other then
        let byUnit := cg.2.foldl (fun acc p => addQty (normalize_unit p.2) p.1 acc) []
        (ordU byUnit).map (fun uq => ⟨uq.2, uq.1, false⟩)
      else
        let target := find_best_target_unit ordT cg.2
        let total := cg.2.foldl
          (fun acc p =>
            match convert_quantity p.1 p.2 target with
            | some c => acc + c
            | none => acc)
          0
        let anyConv := cg.2.any
          (fun p =>
            (convert_quantity p.1 p.2 target).isSome &&
              normalize_unit p.2 != normalize_unit target)
        [⟨total, normalize_unit target, anyConv⟩])

/-! JSON-LD structured data (parser/jsonld.rs) and the recipe mapper
(parser/mod.rs).  The `scraper` HTML parsing and `serde_json` text parsing
crates are external; the model takes the per-script-block parse outcomes
(`Option Json`, `none` for a block that fails to parse) as input and embeds
everything the repository itself does with them. -/

/-- Model of `serde_json::Value` (objects keep key order; serde maps have
unique keys and `get` returns the value of the first matching key). -/
inductive Json where
  | null
  | bool (b : Bool)
  | int (n : Int)
  | float (q : ℚ)
  | str (s : String)
  | arr (xs : List Json)
  | obj (kvs : List (String × Json))

/-- Models `Value::get` for string keys (objects only). -/
def Json.get (j : Json) (k : String) : Option Json :=
  match j with
  | .obj kvs => kvs.lookup k
  | _ => none

/-- Models `Value::as_str`. -/
def Json.asStr : Json → Option String
  | .str s => some s
  | _ => none

/-- Models `Value::as_array`. -/
def Json.asArr : Json → Option (List Json)
  | .arr xs => some xs
  | _ => none

/-- Models `Value::as_i64` (an integer number in `i64` range). -/
def Json.asI64 : Json → Option Int
  | .int n => if inI64 n then some n else none
  | _ => none

/-- Models `is_recipe_type` from parser/jsonld.rs. -/
def is_recipe_type (v : Json) : Bool :=
  match v.get ("@type") with
  | some (.str t) => t = "Recipe"
  | some (.arr ts) =>
    ts.any (fun t =>
      match t with
      | .str s => s = "Recipe"
      | _ => false)
  | _ => false

mutual

/-- Models `find_recipes_in_value` from parser/jsonld.rs: a Recipe-typed
object is collected and its subtree is not searched further; otherwise only
the `@graph` field of an object (when it is an array) and array elements
are descended into. -/
def find_recipes_in_value : Json → List Json
  | .obj kvs =>
    if is_recipe_type (.obj kvs) then [.obj kvs]
    else findRecipesGraph kvs
  | .arr xs => findRecipesList xs
  | _ => []

/-- Descent into the first `@graph` key of an object (serde maps have unique
keys, so this is `get("@graph")` followed by the array check). -/
def findRecipesGraph : List (String × Json) → List Json
  | [] => []
  | (k, v) :: rest =>
    if k = "@graph" then
      match v with
      | .arr xs => findRecipesList xs
      | _ => []
    else findRecipesGraph rest

/-- Search of every element of an array, concatenating the matches. -/
def findRecipesList : List Json → List Json
  | [] => []
  | x :: xs => find_recipes_in_value x ++ findRecipesList xs

end

/-- Parse-stage error taxonomy (parser/mod.rs `ParseError`). -/
inductive ParseError where
  | noJsonLdFound
  | noRecipeFound
  | multipleRecipesFound
  | malformedRecipe (reason : String)
deriving DecidableEq, Repr

/-- Models `extract_jsonld_blocks` from parser/jsonld.rs over the list of
per-script-block parse outcomes: blocks that fail to parse are silently
discarded, and zero surviving blocks is the no-structured-data error. -/
def extract_jsonld_blocks (scripts : List (Option Json)) : Except ParseError (List Json) :=
  let blocks := scripts.filterMap id
  if blocks.isEmpty then .error .noJsonLdFound else .ok blocks

/-- Models `find_recipe_object` from parser/jsonld.rs. -/
def find_recipe_object (blocks : List Json) : Except ParseError Json :=
  match blocks.flatMap find_recipes_in_value with
  | [] => .error .noRecipeFound
  | [r] => .ok r
  | _ => .error .multipleRecipesFound

/-- The locator pipeline of `parse_recipe_from_html` up to the recipe JSON
(extract blocks, then find the unique recipe object). -/
def locate_recipe (scripts : List (Option Json)) : Except ParseError Json :=
  (extract_jsonld_blocks scripts).bind find_recipe_object

/-- Parsed recipe record (parser/mod.rs `ParsedRecipe`). -/
structure ParsedRecipe where
  name : String
  description : String
  prep_time : Int
  cook_time : Int
  total_time : Int
  servings : Int
  image_url : Option String
  ingredients : List ParsedIngredient
  instructions : List String
  author : Option String
  category : Option String
  cuisine : Option String
deriving DecidableEq, Repr

/-- Models `decode_text` from parser/mod.rs (entity decode on a `String`). -/
def decode_text (s : String) : String := (decodeHtmlChars s.toList).asString

/-- One instruction-array element's contribution
(plain string, HowToStep text, flattened HowToSection texts). -/
def instructionStep (item : Json) : List String :=
  match item with
  | .str s => [decode_text s]
  | _ =>
    match item.get ("@type") with
    | some (.str t) =>
      if t = "HowToStep" then
        match item.get ("text") with
        | some (.str s) => [decode_text s]
        | _ => []
      else if t = "HowToSection" then
        match item.get ("itemListElement") with
        | some (.arr items) =>
          items.flatMap (fun si =>
            match si.get ("text") with
            | some (.str s) => [decode_text s]
            | _ => [])
        | _ => []
      else []
    | _ => []

/-- Models `parse_instructions` from parser/mod.rs. -/
def parse_instructions (json : Json) : Except ParseError (List String) :=
  match json.get ("recipeInstructions") with
  | none => .ok []
  | some (.str text) => .ok [decode_text text]
  | some (.arr arr) => .ok (arr.flatMap instructionStep)
  | some _ => .ok []

/-- Models `extract_first_number` from parser/mod.rs. -/
def extract_first_number (s : String) : Option Int :=
  let l := s.toList
  let pre := l.takeWhile Char.isDigit
  if !pre.isEmpty then parseI64Digits pre
  else
    let run := (l.dropWhile (fun c => !c.isDigit)).takeWhile Char.isDigit
    if run.isEmpty then none else parseI64Digits run

/-- Models `parse_servings` from parser/mod.rs. -/
def parse_servings (json : Json) : Int :=
  match json.get ("recipeYield") with
  | some (.str s) =>
    match extract_first_number s with
    | some num => num
    | none => 4
  | some (.int n) => if inI64 n then n else 4
  | some (.arr xs) =>
    match xs with
    | .str s :: _ =>
      match extract_first_number s with
      | some num => num
      | none => 4
    | _ => 4
  | _ => 4

/-- Models `validate_url` from parser/mod.rs (absolute http/https only). -/
def validate_url (url : String) : Option String :=
  if ("http://").isPrefixOf url || ("https://").isPrefixOf url then some url else none

/-- First valid image URL of an `image` array (string entries and
`{url: ...}` object entries). -/
def firstImageFromArr : List Json → Option String
  | [] => none
  | item :: rest =>
    match item with
    | .str url =>
      match validate_url url with
      | some v => some v
      | none => firstImageFromArr rest
    | _ =>
      match item.get ("url") with
      | some (.str url) =>
        match validate_url url with
        | some v => some v
        | none => firstImageFromArr rest
      | _ => firstImageFromArr rest

/-- Models `parse_image` from parser/mod.rs. -/
def parse_image (json : Json) : Option String :=
  match json.get ("image") with
  | none => none
  | some (.str url) => validate_url url
  | some (.arr items) => firstImageFromArr items
  | some imageVal =>
    match imageVal.get ("url") with
    | some (.str url) => validate_url url
    | _ => none

/-- The successfully mapped record of `parse_recipe_json` (the assignments
of every field, required and optional, as in parser/mod.rs). -/
def buildParsedRecipe (json : Json) (name0 : String)
    (ingredients : List ParsedIngredient) (instructions : List String) : ParsedRecipe :=
  { name := decode_text name0
    description :=
      match json.get ("description") with
      | some (.str s) => decode_text s
      | _ => ""
    prep_time :=
      match json.get ("prepTime") with
      | some (.str s) => parse_iso8601_duration s
      | _ => 0
    cook_time :=
      match json.get ("cookTime") with
      | some (.str s) => parse_iso8601_duration s
      | _ => 0
    total_time :=
      match json.get ("totalTime") with
      | some (.str s) => parse_iso8601_duration s
      | _ => 0
    servings := parse_servings json
    image_url := parse_image json
    ingredients := ingredients
    instructions := instructions
    author :=
      match json.get ("author") with
      | some (.str s) => some s
      | some v =>
        match v.get ("name") with
        | some (.str s) => some s
        | _ => none
      | none => none
    category :=
      match json.get ("recipeCategory") with
      | some (.str s) => some s
      | some (.arr xs) => xs.head?.bind Json.asStr
      | _ => none
    cuisine :=
      match json.get ("recipeCuisine") with
      | some (.str s) => some s
      | some (.arr xs) => xs.head?.bind Json.asStr
      | _ => none }

/-- Models `parse_recipe_json` from parser/mod.rs; the outer `Option` is a
panic of `parse_ingredient` (propagated, as a Rust panic would be), the
`Except` is the mapper's own error taxonomy. -/
def parse_recipe_json (json : Json) : Option (Except ParseError ParsedRecipe) :=
  match json.get ("name") with
  | some (.str name0) =>
    match json.get ("recipeIngredient") with
    | some (.arr ingredientsRaw) =>
      match (ingredientsRaw.filterMap Json.asStr).mapM parse_ingredient with
      | none => none
      | some ingredients =>
        if ingredients.isEmpty then some (.error (.malformedRecipe ("no valid ingredients")))
        else
          match parse_instructions json with
          | .error e => some (.error e)
          | .ok instructions =>
            if instructions.isEmpty then some (.error (.malformedRecipe ("missing instructions")))
            else some (.ok (buildParsedRecipe json name0 ingredients instructions))
    | _ => some (.error (.malformedRecipe ("missing ingredients")))
  | _ => some (.error (.malformedRecipe ("missing name")))

/-! HTTP content-type gate (http/mod.rs). -/

/-- Substring test (Rust `str::contains` with a string pattern; the needles
used are ASCII, for which byte-level and character-level containment agree). -/
def containsSub (needle : List Char) : List Char → Bool
  | [] => needle.isEmpty
  | c :: rest => needle.isPrefixOf (c :: rest) || containsSub needle rest

/-- Models `is_html_content_type` from http/mod.rs. -/
def is_html_content_type (content_type : String) : Bool :=
  let lower := rustToLower content_type.toList
  containsSub ("text/html").toList lower || containsSub ("application/xhtml+xml").toList lower

/-- Models the content-type check of `fetch_url` (http/mod.rs lines 153-158):
a missing header is not rejected, a present header must pass
`is_html_content_type`.  `true` means the fetch proceeds. -/
def contentTypeGate : Option String → Bool
  | none => true
  | some ct => is_html_content_type ct

/-- Modelled from the spec: the media type of a content-type header is the
portion before any `;`-separated parameters, compared case-insensitively;
this is the spec's acceptance rule for `is_html_content_type`, stated for
comparison with the source's substring-based rule. -/
def specMediaType (ct : String) : String :=
  ((rustToLower ct.toList).takeWhile (fun c => c ≠ (';'))).asString

/-- Modelled from the spec: acceptance if and only if the media type is
exactly `text/html` or `application/xhtml+xml`. -/
def spec_accepts_content_type (ct : String) : Bool :=
  specMediaType ct = "text/html" || specMediaType ct = "application/xhtml+xml"

/-! Helper lemmas. -/

/-- A valid recipe block whose `recipeYield` is the bare integer 0. -/
def yieldZeroRecipe : Json :=
  Json.obj [("name", Json.str ("T")),
    ("recipeIngredient", Json.arr [Json.str ("1 egg")]),
    ("recipeInstructions", Json.arr [Json.str ("Cook")]),
    ("recipeYield", Json.int 0)]

/-- A valid recipe block whose optional string fields all carry the HTML
entity `&amp;`. -/
def entityRecipe : Json :=
  Json.obj [("name", Json.str ("T&amp;T")),
    ("recipeIngredient", Json.arr [Json.str ("1 egg")]),
    ("recipeInstructions", Json.arr [Json.str ("Mix &amp; bake")]),
    ("description", Json.str ("a &amp; b")),
    ("author", Json.str ("A &amp; B")),
    ("recipeCategory", Json.str ("Sna&amp;cks")),
    ("recipeCuisine", Json.arr [Json.str ("Te&amp;x")])]

/-- Number of entries of a group whose normalized unit is `u`. -/
def countNorm (items : List (ℚ × String)) (u : String) : Nat :=
  items.countP (fun p => normalize_unit p.2 == u)

/-- The counts map of `find_best_target_unit`, in insertion order. -/
def buildCounts (items : List (ℚ × String)) : List (String × Nat) :=
  items.foldl (fun acc p => bumpCount (normalize_unit p.2) acc) []

/-- Association-list lookup with propositional key comparison (reasoning
helper for the counts map). -/
def alookup (u : String) : List (String × Nat) → Option Nat
  | [] => none
  | (k, c) :: rest => if k = u then some c else alookup u rest

/-- The quantity-token grammar of the specification: integer, decimal,
simple fraction (nonzero denominator) or mixed number, paired with its
numeric value. -/
inductive QtyToken : List Char → ℚ → Prop where
  | int (ds : List Char) (h1 : ds ≠ []) (h2 : ds.all Char.isDigit = true) :
      QtyToken ds ((digitsVal ds : ℚ))
  | dec (a b : List Char) (ha1 : a ≠ []) (ha2 : a.all Char.isDigit = true)
      (hb1 : b ≠ []) (hb2 : b.all Char.isDigit = true) :
      QtyToken (a ++ (('.') :: b)) ((digitsVal a : ℚ) + (digitsVal b : ℚ) / 10 ^ b.length)
  | frac (a b : List Char) (ha1 : a ≠ []) (ha2 : a.all Char.isDigit = true)
      (hb1 : b ≠ []) (hb2 : b.all Char.isDigit = true) (hb0 : digitsVal b ≠ 0) :
      QtyToken (a ++ (('/') :: b)) ((digitsVal a : ℚ) / (digitsVal b : ℚ))
  | mixed (a b c : List Char) (ha1 : a ≠ []) (ha2 : a.all Char.isDigit = true)
      (hb1 : b ≠ []) (hb2 : b.all Char.isDigit = true)
      (hc1 : c ≠ []) (hc2 : c.all Char.isDigit = true) (hc0 : digitsVal c ≠ 0) :
      QtyToken (a ++ ((' ') :: (b ++ (('/') :: c))))
        ((digitsVal a : ℚ) + (digitsVal b : ℚ) / (digitsVal c : ℚ))

theorem containsSub_of_prefix {n h : List Char} (hp : n <+: h) : containsSub n h = true := by
  cases h with
  | nil =>
    have : n = [] := List.prefix_nil.mp hp
    simp [this, containsSub]
  | cons c rest =>
    simp [containsSub, List.isPrefixOf_iff_prefix, hp]

theorem durationGo_digits (d rest cur : List Char) (m : Int) (ov : Bool)
    (hd : d.all Char.isDigit) :
    durationGo (d ++ rest) cur m ov = durationGo rest (cur ++ d) m ov := by
  induction d generalizing cur with
  | nil => simp
  | cons c d' ih =>
    simp only [List.all_cons, Bool.and_eq_true] at hd
    rw [List.cons_append, durationGo, if_pos hd.1, ih _ hd.2]
    simp

theorem parseI64Digits_digits (d : List Char) (h1 : d ≠ []) (h2 : d.all Char.isDigit)
    (h3 : (digitsVal d : Int) ≤ i64Max) : parseI64Digits d = some ((digitsVal d : Int)) := by
  simp [parseI64Digits, h1, h2, h3]

/-! Claim C5. -/

/-- C5: the claim states `parse_ingredient` and `parse_iso8601_duration`
are total with every `parse_unit` slice on a character boundary and no
overflow in the duration arithmetic.  The code violates both: the input
"1 (KELVIN SIGN)g flour" makes `parse_unit` slice the 3-byte character
U+212A at byte offset 2 (a panic), because the offset is the byte length
of the vocabulary term "kg" matched against the lowercased copy where
U+212A became the 1-byte "k"; and "PT9223372036854775807H" multiplies
`i64::MAX` by 60, leaving the `i64` range. -/
theorem c5_totality_violated :
    parseIngredientChars
      ('1' :: ' ' :: Char.ofNat 0x212A :: 'g' :: ' ' :: 'f' :: 'l' :: 'o' :: 'u' :: 'r' :: []) =
      none ∧
    (durationRun ("PT9223372036854775807H")).2 = true := by decide

/-! Claim C10. -/

/-- C10 counterexample: `is_html_content_type` accepts
"application/json; profile=text/html", whose media type
(portion before the `;`) is `application/json`, not in the allow-list;
the claimed if-and-only-if acceptance rule is therefore false. -/
theorem c10_counterexample :
    is_html_content_type ("application/json; profile=text/html") = true ∧
    specMediaType ("application/json; profile=text/html") = "application/json" ∧
    spec_accepts_content_type ("application/json; profile=text/html") = false := by decide

/-- C10 amended: `is_html_content_type` accepts every content type whose
`;`-delimited media type is exactly `text/html` or `application/xhtml+xml`
(case-insensitively), a response with no content-type header is not
rejected, and acceptance is in general substring containment of the two
allow-list entries in the lowercased header (so some other media types
are also accepted). -/
theorem c10_amended :
    (∀ ct : String, spec_accepts_content_type ct = true → is_html_content_type ct = true) ∧
    contentTypeGate none = true ∧
    (∀ ct : String, is_html_content_type ct = true ↔
      (containsSub (("text/html").toList) (rustToLower ct.toList) = true ∨
       containsSub (("application/xhtml+xml").toList) (rustToLower ct.toList) = true)) := by
  refine ⟨?_, rfl, ?_⟩
  · intro ct hct
    simp only [spec_accepts_content_type, Bool.or_eq_true, decide_eq_true_eq] at hct
    have hbase : ∀ s : String,
        specMediaType ct = s →
        containsSub s.toList (rustToLower ct.toList) = true := by
      intro s hs
      have hl : (rustToLower ct.toList).takeWhile (fun c => c ≠ (';')) = s.toList :=
        List.asString_eq.mp hs
      have hp : s.toList <+: rustToLower ct.toList := hl ▸ List.takeWhile_prefix _
      exact containsSub_of_prefix hp
    rcases hct with h | h
    · have hres := hbase _ h
      simp only [is_html_content_type, Bool.or_eq_true]
      exact Or.inl hres
    · have hres := hbase _ h
      simp only [is_html_content_type, Bool.or_eq_true]
      exact Or.inr hres
  · intro ct
    simp [is_html_content_type]

/-- C10 witness: a well-formed HTML content type with a charset parameter
is accepted through the amended theorem. -/
theorem c10_witness :
    spec_accepts_content_type ("text/html; charset=utf-8") = true ∧
    is_html_content_type ("text/html; charset=utf-8") = true :=
  ⟨by decide, c10_amended.1 ("text/html; charset=utf-8") (by decide)⟩

/-! Claim C4. -/

/-- C4 counterexample: for h = 2^63 (not representable as `i64`) the digit
parse fails, the hour contribution is dropped, and the result is 1 instead
of the claimed h*60+1. -/
theorem c4_counterexample :
    parse_iso8601_duration ("PT9223372036854775808H1M") = 1 ∧
    parse_iso8601_duration ("PT9223372036854775808H1M") ≠ 9223372036854775808 * 60 + 1 := by
  decide

/-- One `H` step of the duration scanner. -/
theorem durationGo_H (rest cur : List Char) (m : Int) (ov : Bool) :
    durationGo ('H' :: rest) cur m ov =
      durationGo rest [] (m + ((parseI64Digits cur).getD 0) * 60)
        (ov || !inI64 (((parseI64Digits cur).getD 0) * 60) ||
          !inI64 (m + ((parseI64Digits cur).getD 0) * 60)) := rfl

/-- One `M` step of the duration scanner. -/
theorem durationGo_M (rest cur : List Char) (m : Int) (ov : Bool) :
    durationGo ('M' :: rest) cur m ov =
      durationGo rest [] (m + (parseI64Digits cur).getD 0)
        (ov || !inI64 (m + (parseI64Digits cur).getD 0)) := rfl

/-- One `S` step of the duration scanner (seconds are discarded). -/
theorem durationGo_S (rest cur : List Char) (m : Int) (ov : Bool) :
    durationGo ('S' :: rest) cur m ov = durationGo rest [] m ov := rfl

set_option maxRecDepth 4000 in
/-- C4 amended: for every duration string `PT{h}H{m}M` (optionally with a
trailing `{s}S` seconds component, which is ignored) whose minute total
h*60+m is representable as an `i64`, the parser returns h*60+m; every
string not beginning with `P` yields 0.  (For h or m at or beyond 2^63 the
digit parse fails and that component contributes 0 instead, which is the
counterexample's divergence.) -/
theorem c4_amended :
    (∀ s : String, s.toList.head? ≠ some ('P') → parse_iso8601_duration s = 0) ∧
    (∀ hs ms ss : List Char, hs ≠ [] → ms ≠ [] →
      hs.all Char.isDigit → ms.all Char.isDigit → ss.all Char.isDigit →
      (digitsVal hs : Int) * 60 + digitsVal ms ≤ i64Max →
      parse_iso8601_duration (('P' :: 'T' :: (hs ++ ('H' :: (ms ++ ['M'])))).asString) =
        digitsVal hs * 60 + digitsVal ms ∧
      parse_iso8601_duration
          (('P' :: 'T' :: (hs ++ ('H' :: (ms ++ ('M' :: (ss ++ ['S'])))))).asString) =
        digitsVal hs * 60 + digitsVal ms) := by
  constructor
  · intro s hs
    show (durationRun s).1 = 0
    unfold durationRun
    cases h : s.toList with
    | nil => rfl
    | cons c t =>
      rw [h] at hs
      have hc : c ≠ ('P') := by
        intro hcp
        apply hs
        rw [hcp]
        rfl
      split
      all_goals simp_all
  · intro hs ms ss hns hnm hdh hdm hds hbound
    have hh0 : (0 : Int) ≤ digitsVal hs := Int.ofNat_nonneg _
    have hm0 : (0 : Int) ≤ digitsVal ms := Int.ofNat_nonneg _
    have hhM : (digitsVal hs : Int) ≤ i64Max := by
      have : (digitsVal hs : Int) ≤ (digitsVal hs : Int) * 60 := by omega
      omega
    have hmM : (digitsVal ms : Int) ≤ i64Max := by omega
    have hin1 : inI64 ((digitsVal hs : Int) * 60) = true := by
      simp only [inI64, Bool.and_eq_true, decide_eq_true_eq]
      unfold i64Max at hbound
      omega
    have hin3 : inI64 ((digitsVal hs : Int) * 60 + digitsVal ms) = true := by
      simp only [inI64, Bool.and_eq_true, decide_eq_true_eq]
      unfold i64Max at hbound
      omega
    have key : ∀ tail : List Char,
        durationGo tail [] ((digitsVal hs : Int) * 60 + digitsVal ms) false =
          ((digitsVal hs : Int) * 60 + digitsVal ms, false) →
        durationGo (hs ++ ('H' :: (ms ++ ('M' :: tail)))) [] 0 false =
          ((digitsVal hs : Int) * 60 + digitsVal ms, false) := by
      intro tail htail
      rw [durationGo_digits hs _ _ _ _ hdh, durationGo_H]
      simp only [List.nil_append, parseI64Digits_digits hs hns hdh hhM, Option.getD_some,
        zero_add]
      rw [durationGo_digits ms _ _ _ _ hdm, durationGo_M]
      simp only [List.nil_append, parseI64Digits_digits ms hnm hdm hmM, Option.getD_some,
        hin1, hin3, Bool.not_true, Bool.or_false, Bool.false_or, Bool.or_self]
      exact htail
    constructor
    · have hrun :
        durationRun (('P' :: 'T' :: (hs ++ ('H' :: (ms ++ ['M'])))).asString) =
          durationGo (hs ++ ('H' :: (ms ++ ['M']))) [] 0 false := rfl
      show (durationRun _).1 = _
      rw [hrun]
      rw [show (hs ++ ('H' :: (ms ++ ['M']))) = (hs ++ ('H' :: (ms ++ ('M' :: [])))) from rfl]
      rw [key [] rfl]
    · have hrun :
        durationRun (('P' :: 'T' :: (hs ++ ('H' :: (ms ++ ('M' :: (ss ++ ['S'])))))).asString) =
          durationGo (hs ++ ('H' :: (ms ++ ('M' :: (ss ++ ['S']))))) [] 0 false := rfl
      show (durationRun _).1 = _
      rw [hrun]
      rw [key (ss ++ ['S']) ?_]
      rw [durationGo_digits ss _ _ _ _ hds, List.nil_append, durationGo_S]
      rfl

/-- C4 witness: the amended theorem applied at PT2H15M and PT1H30M45S. -/
theorem c4_witness :
    parse_iso8601_duration (('P' :: 'T' :: (['2'] ++ ('H' :: (['1', '5'] ++ ['M'])))).asString) =
      135 ∧
    parse_iso8601_duration
      (('P' :: 'T' ::
        (['1'] ++ ('H' :: (['3', '0'] ++ ('M' :: (['4', '5'] ++ ['S'])))))).asString) = 90 ∧
    parse_iso8601_duration ("30") = 0 := by
  refine ⟨?_, ?_, c4_amended.1 ("30") (by decide)⟩
  · have h := (c4_amended.2 ['2'] ['1', '5'] [] (by decide) (by decide)
      (by decide) (by decide) (by decide) (by decide)).1
    rw [h]
    decide
  · have h := (c4_amended.2 ['1'] ['3', '0'] ['4', '5'] (by decide) (by decide)
      (by decide) (by decide) (by decide) (by decide)).2
    rw [h]
    decide

/-! Claim C3. -/

/-- C3: the structured-data locator is a trichotomy over the whole document.
With `parsed` the script blocks that parse as well-formed JSON and `matches`
the Recipe-typed objects collected across all of them: zero parsed blocks
fails with the no-structured-data error; otherwise zero matches fails with
the no-recipe error, exactly one match returns that object, and two or more
fail with the multiple-recipes error. -/
theorem c3_locator_trichotomy (scripts : List (Option Json)) :
    (scripts.filterMap id = [] → locate_recipe scripts = .error .noJsonLdFound) ∧
    (scripts.filterMap id ≠ [] →
      (((scripts.filterMap id).flatMap find_recipes_in_value) = [] →
        locate_recipe scripts = .error .noRecipeFound) ∧
      (∀ r, ((scripts.filterMap id).flatMap find_recipes_in_value) = [r] →
        locate_recipe scripts = .ok r) ∧
      (2 ≤ ((scripts.filterMap id).flatMap find_recipes_in_value).length →
        locate_recipe scripts = .error .multipleRecipesFound)) := by
  constructor
  · intro hempty
    simp [locate_recipe, extract_jsonld_blocks, hempty, Except.bind]
  · intro hne
    have hok : extract_jsonld_blocks scripts = .ok (scripts.filterMap id) := by
      have hb : (scripts.filterMap id).isEmpty = false := by
        cases h : scripts.filterMap id with
        | nil => exact absurd h hne
        | cons a t => rfl
      simp [extract_jsonld_blocks, hb]
    have hloc : locate_recipe scripts = find_recipe_object (scripts.filterMap id) := by
      simp [locate_recipe, hok, Except.bind]
    refine ⟨?_, ?_, ?_⟩
    · intro hm
      rw [hloc]
      simp [find_recipe_object, hm]
    · intro r hm
      rw [hloc]
      simp [find_recipe_object, hm]
    · intro hlen
      rw [hloc]
      unfold find_recipe_object
      cases hm : (scripts.filterMap id).flatMap find_recipes_in_value with
      | nil => rw [hm] at hlen; simp at hlen
      | cons a t =>
        cases t with
        | nil => rw [hm] at hlen; simp at hlen
        | cons b t2 => rfl

/-- C3 witness: one parsed block holding one Recipe object is returned;
a parsed block with no recipe gives the no-recipe error; two recipes give
the ambiguity error; an unparsable-only document gives the
no-structured-data error. -/
theorem c3_witness :
    locate_recipe [some (Json.obj [("@type", Json.str ("Recipe"))])] =
      .ok (Json.obj [("@type", Json.str ("Recipe"))]) ∧
    locate_recipe [some (Json.obj [("@type", Json.str ("Article"))])] =
      .error .noRecipeFound ∧
    locate_recipe [some (Json.obj [("@type", Json.str ("Recipe"))]),
        some (Json.obj [("@type", Json.str ("Recipe")), ("name", Json.str ("b"))])] =
      .error .multipleRecipesFound ∧
    locate_recipe [none] = .error .noJsonLdFound := by
  refine ⟨?_, ?_, ?_, ?_⟩
  · exact ((c3_locator_trichotomy _).2 (by exact List.cons_ne_nil _ _)).2.1 _ rfl
  · exact ((c3_locator_trichotomy _).2 (by exact List.cons_ne_nil _ _)).1 rfl
  · exact ((c3_locator_trichotomy _).2 (by exact List.cons_ne_nil _ _)).2.2 (by
      show 2 ≤ (List.length _)
      rfl)
  · exact (c3_locator_trichotomy _).1 rfl

/-! Claim C7. -/

/-- C7 counterexample: the mapper returns a ParsedRecipe with servings 0
for a bare-integer `recipeYield` of 0, violating the claimed servings >= 1
invariant (the extracted integer is returned unchecked). -/
theorem c7_counterexample :
    parse_recipe_json yieldZeroRecipe =
      some (.ok ⟨"T", "", 0, 0, 0, 0, none, [⟨1, "", "egg"⟩], ["Cook"], none, none, none⟩) ∧
    ¬(1 ≤ (⟨"T", "", 0, 0, 0, 0, none, [⟨1, "", "egg"⟩], ["Cook"], none, none,
        none⟩ : ParsedRecipe).servings) := by
  constructor
  · rfl
  · decide

/-- C7 amended: every successfully mapped recipe's servings equal
`parse_servings` of the block, which is exactly 4 when `recipeYield` is
absent or no integer can be extracted from it, and otherwise the extracted
integer unchanged and unchecked (a bare integer is returned as-is, a string
or first-array-string yields its first embedded number), so servings >= 1
holds only when the extracted integer is >= 1. -/
theorem c7_amended :
    (∀ j r, parse_recipe_json j = some (.ok r) → r.servings = parse_servings j) ∧
    (∀ j : Json, j.get ("recipeYield") = none → parse_servings j = 4) ∧
    (∀ (j : Json) (n : Int), j.get ("recipeYield") = some (.int n) → inI64 n = true →
      parse_servings j = n) ∧
    (∀ (j : Json) (s : String), j.get ("recipeYield") = some (.str s) →
      parse_servings j = (extract_first_number s).getD 4) ∧
    (∀ (j : Json) (s : String) (rest : List Json),
      j.get ("recipeYield") = some (.arr (Json.str s :: rest)) →
      parse_servings j = (extract_first_number s).getD 4) := by
  refine ⟨?_, ?_, ?_, ?_, ?_⟩
  · intro j r h
    unfold parse_recipe_json at h
    repeat' split at h
    all_goals try exact Option.noConfusion h
    all_goals injection h with h2
    all_goals try exact Except.noConfusion h2
    all_goals injection h2 with h3
    all_goals rw [← h3]
    all_goals rfl
  · intro j h
    unfold parse_servings
    rw [h]
  · intro j n h hn
    unfold parse_servings
    rw [h]
    simp [hn]
  · intro j s h
    unfold parse_servings
    rw [h]
    cases hx : extract_first_number s <;> simp [hx]
  · intro j s rest h
    unfold parse_servings
    rw [h]
    cases hx : extract_first_number s <;> simp [hx]

/-- C7 witness: the amended theorem applied to blocks with string, absent
and bare-integer `recipeYield`. -/
theorem c7_witness :
    parse_servings (Json.obj [("recipeYield", Json.str ("6 servings"))]) = 6 ∧
    parse_servings (Json.obj [("name", Json.str ("x"))]) = 4 ∧
    parse_servings (Json.obj [("recipeYield", Json.int 3)]) = 3 ∧
    parse_servings (Json.obj [("recipeYield", Json.arr [Json.str ("4-6")])]) = 4 := by
  refine ⟨?_, ?_, ?_, ?_⟩
  · rw [c7_amended.2.2.2.1 (Json.obj [("recipeYield", Json.str ("6 servings"))])
      ("6 servings") rfl]
    decide
  · exact c7_amended.2.1 (Json.obj [("name", Json.str ("x"))]) rfl
  · exact c7_amended.2.2.1 (Json.obj [("recipeYield", Json.int 3)]) 3 rfl (by decide)
  · rw [c7_amended.2.2.2.2 (Json.obj [("recipeYield", Json.arr [Json.str ("4-6")])])
      ("4-6") [] rfl]
    decide

/-! Claim C9. -/

/-- C9: the claim says every optional string field (description, author,
recipeCategory, recipeCuisine) is entity-decoded like the name.  The code
decodes name, description, ingredient and instruction text but stores
author, recipeCategory and recipeCuisine verbatim: on `entityRecipe` the
name and description come back decoded ("T&T", "a & b") while author,
category and cuisine keep the raw `&amp;` text, although decoding would
change them. -/
theorem c9_optional_fields_not_decoded :
    parse_recipe_json entityRecipe =
      some (.ok ⟨"T&T", "a & b", 0, 0, 0, 4, none, [⟨1, "", "egg"⟩], ["Mix & bake"],
        some "A &amp; B", some "Sna&amp;cks", some "Te&amp;x"⟩) ∧
    decode_text ("A &amp; B") = "A & B" ∧
    ("A &amp; B" : String) ≠ "A & B" ∧
    decode_text ("Sna&amp;cks") = "Sna&cks" ∧
    decode_text ("Te&amp;x") = "Te&x" := by
  refine ⟨rfl, by decide, by decide, by decide, by decide⟩

/-! Lemmas about lowercasing, unit tables and normalization
(used by claims C8 and C2). -/

theorem lookup_mem {α β : Type} [BEq α] [LawfulBEq α] {l : List (α × β)} {k : α} {v : β}
    (h : l.lookup k = some v) : (k, v) ∈ l := by
  induction l with
  | nil => simp [List.lookup] at h
  | cons kv rest ih =>
    rw [show rest.cons kv = (kv.1, kv.2) :: rest from rfl, List.lookup_cons] at h
    cases hbeq : k == kv.1 with
    | true =>
      rw [hbeq] at h
      simp only [] at h
      injection h with h1
      have hkk : k = kv.1 := eq_of_beq hbeq
      have hpair : (k, v) = kv := by rw [hkk, ← h1]
      rw [hpair]
      exact List.mem_cons_self _ _
    | false =>
      rw [hbeq] at h
      simp only [] at h
      exact List.mem_cons_of_mem _ (ih h)

theorem lookup_none_of_forall {α : Type} {l : List (String × α)} {k : String}
    (h : ∀ kv ∈ l, kv.1 ≠ k) : l.lookup k = none := by
  induction l with
  | nil => rfl
  | cons kv rest ih =>
    rw [show rest.cons kv = (kv.1, kv.2) :: rest from rfl, List.lookup_cons]
    have hne : (k == kv.1) = false := by
      cases hb : k == kv.1
      · rfl
      · exact absurd (eq_of_beq hb).symm (h kv (List.mem_cons_self _ _))
    rw [hne]
    simp only []
    exact ih (fun kv2 hm => h kv2 (List.mem_cons_of_mem _ hm))

theorem flatMap_stable {f : Char → List Char} : ∀ {l : List Char},
    (∀ c ∈ l, f c = [c]) → l.flatMap f = l := by
  intro l
  induction l with
  | nil => intro _; rfl
  | cons c cs ih =>
    intro h
    rw [List.flatMap_cons, h c (List.mem_cons_self _ _),
      ih (fun d hd => h d (List.mem_cons_of_mem _ hd))]
    rfl

theorem rustCharLower_stable (c : Char) : ∀ o ∈ rustCharLower c, rustCharLower o = [o] := by
  intro o ho
  unfold rustCharLower at ho
  cases hl : upperLower.lookup c with
  | some o2 =>
    rw [hl] at ho
    simp only [List.mem_singleton] at ho
    subst ho
    have hfin : ∀ kv ∈ upperLower, rustCharLower kv.2 = [kv.2] := by decide
    exact hfin _ (lookup_mem hl)
  | none =>
    rw [hl] at ho
    by_cases h1 : c.toNat = 0x212A
    · rw [if_pos h1] at ho
      simp only [List.mem_singleton] at ho
      subst ho
      decide
    · rw [if_neg h1] at ho
      by_cases h2 : c.toNat = 0x212B
      · rw [if_pos h2] at ho
        simp only [List.mem_singleton] at ho
        subst ho
        decide
      · rw [if_neg h2] at ho
        by_cases h3 : c.toNat = 0x130
        · rw [if_pos h3] at ho
          simp only [List.mem_cons, List.not_mem_nil, or_false] at ho
          rcases ho with rfl | rfl <;> decide
        · rw [if_neg h3] at ho
          simp only [List.mem_singleton] at ho
          subst ho
          unfold rustCharLower
          rw [hl, if_neg h1, if_neg h2, if_neg h3]

theorem rustToLower_idem (l : List Char) : rustToLower (rustToLower l) = rustToLower l := by
  induction l with
  | nil => rfl
  | cons c cs ih =>
    show rustToLower (rustCharLower c ++ rustToLower cs) = _
    unfold rustToLower
    rw [List.flatMap_append]
    unfold rustToLower at ih
    rw [ih, flatMap_stable (rustCharLower_stable c)]
    rfl

theorem rustToLowerStr_idem (s : String) : rustToLowerStr (rustToLowerStr s) = rustToLowerStr s := by
  unfold rustToLowerStr
  rw [List.toList_asString, rustToLower_idem]

theorem normalize_unit_eq (u : String) :
    normalize_unit u = (normTable.lookup (rustToLowerStr u)).getD (rustToLowerStr u) := rfl

theorem conversion_factor_eq (u : String) :
    get_conversion_factor u = factorTable.lookup (rustToLowerStr u) := rfl

theorem get_unit_category_eq (u : String) :
    get_unit_category u =
      (if volumeUnits.contains (rustToLowerStr u) = true then .Volume
       else if weightUnits.contains (rustToLowerStr u) = true then .Weight
       else if countUnits.contains (rustToLowerStr u) = true then .Count
       else .Other) := rfl

theorem mem_volume_of_category {u : String} (h : get_unit_category u = .Volume) :
    rustToLowerStr u ∈ volumeUnits := by
  rw [get_unit_category_eq] at h
  split_ifs at h with h1 h2 h3
  exact List.elem_iff.mp h1

theorem mem_weight_of_category {u : String} (h : get_unit_category u = .Weight) :
    rustToLowerStr u ∈ weightUnits := by
  rw [get_unit_category_eq] at h
  split_ifs at h with h1 h2 h3
  exact List.elem_iff.mp h2

theorem mem_count_of_category {u : String} (h : get_unit_category u = .Count) :
    rustToLowerStr u ∈ countUnits := by
  rw [get_unit_category_eq] at h
  split_ifs at h with h1 h2 h3
  exact List.elem_iff.mp h3

theorem not_mem_of_category_other {u : String} (h : get_unit_category u = .Other) :
    rustToLowerStr u ∉ volumeUnits ∧ rustToLowerStr u ∉ weightUnits ∧
      rustToLowerStr u ∉ countUnits := by
  rw [get_unit_category_eq] at h
  split_ifs at h with h1 h2 h3
  refine ⟨fun hm => h1 (List.elem_iff.mpr hm), fun hm => h2 (List.elem_iff.mpr hm),
    fun hm => h3 (List.elem_iff.mpr hm)⟩

theorem vol_norm_fact : ∀ v ∈ volumeUnits,
    get_unit_category ((normTable.lookup v).getD v) = .Volume ∧
    get_conversion_factor ((normTable.lookup v).getD v) = factorTable.lookup v ∧
    ((factorTable.lookup v).map (fun q => decide (0 < q))).getD false = true := by decide

theorem weight_norm_fact : ∀ v ∈ weightUnits,
    get_unit_category ((normTable.lookup v).getD v) = .Weight ∧
    get_conversion_factor ((normTable.lookup v).getD v) = factorTable.lookup v ∧
    ((factorTable.lookup v).map (fun q => decide (0 < q))).getD false = true := by decide

theorem count_norm_idem_fact : ∀ v ∈ countUnits,
    normalize_unit ((normTable.lookup v).getD v) = (normTable.lookup v).getD v := by decide

theorem normTable_keys_categorized : ∀ kv ∈ normTable,
    kv.1 ∈ volumeUnits ∨ kv.1 ∈ weightUnits ∨ kv.1 ∈ countUnits := by decide

theorem factor_pos_of_fact {o : Option ℚ}
    (h : (o.map (fun q => decide (0 < q))).getD false = true) :
    ∃ f : ℚ, o = some f ∧ 0 < f := by
  cases o with
  | none => simp at h
  | some q =>
    refine ⟨q, rfl, ?_⟩
    simpa using h

theorem volume_weight_normalize {u : String}
    (h : get_unit_category u = .Volume ∨ get_unit_category u = .Weight) :
    get_unit_category (normalize_unit u) = get_unit_category u ∧
    get_conversion_factor (normalize_unit u) = get_conversion_factor u ∧
    ∃ f : ℚ, get_conversion_factor u = some f ∧ 0 < f := by
  rcases h with h | h
  · have hf := vol_norm_fact _ (mem_volume_of_category h)
    rw [normalize_unit_eq u, conversion_factor_eq u, h]
    exact ⟨hf.1, by rw [hf.2.1], factor_pos_of_fact hf.2.2⟩
  · have hf := weight_norm_fact _ (mem_weight_of_category h)
    rw [normalize_unit_eq u, conversion_factor_eq u, h]
    exact ⟨hf.1, by rw [hf.2.1], factor_pos_of_fact hf.2.2⟩

theorem countOther_norm_idem {u : String}
    (h : get_unit_category u = .Count ∨ get_unit_category u = .Other) :
    normalize_unit (normalize_unit u) = normalize_unit u := by
  rcases h with h | h
  · rw [normalize_unit_eq u]
    exact count_norm_idem_fact _ (mem_count_of_category h)
  · have hnot := not_mem_of_category_other h
    have hnm : ∀ kv ∈ normTable, kv.1 ≠ rustToLowerStr u := by
      intro kv hkv heq
      rcases normTable_keys_categorized kv hkv with hc | hc | hc
      · exact hnot.1 (heq ▸ hc)
      · exact hnot.2.1 (heq ▸ hc)
      · exact hnot.2.2 (heq ▸ hc)
    have hlook : normTable.lookup (rustToLowerStr u) = none := lookup_none_of_forall hnm
    rw [normalize_unit_eq u, hlook, Option.getD_none, normalize_unit_eq, rustToLowerStr_idem,
      hlook, Option.getD_none]

/-! Claim C8. -/

theorem c8_aux_co
    (ordC : List (UnitCategory × List (ℚ × String)) → List (UnitCategory × List (ℚ × String)))
    (ordU : List (String × ℚ) → List (String × ℚ))
    (ordT : List (String × Nat) → List (String × Nat))
    (hC : ∀ l, (ordC l).Perm l) (hU : ∀ l, (ordU l).Perm l)
    (q : ℚ) (u : String)
    (hcat : get_unit_category u = .Count ∨ get_unit_category u = .Other) :
    aggregate_quantities ordC ordU ordT [(q, u)] =
      [⟨q, normalize_unit (normalize_unit u),
        normalize_unit u != normalize_unit (normalize_unit u)⟩] := by
  have hCs := List.perm_singleton.mp (hC [(get_unit_category u, [(q, u)])])
  have hUs := List.perm_singleton.mp (hU [(normalize_unit u, q)])
  have hid := countOther_norm_idem hcat
  unfold aggregate_quantities
  rw [if_neg (by simp)]
  show (ordC [(get_unit_category u, [(q, u)])]).flatMap _ = _
  rw [hCs]
  simp only [List.flatMap_cons, List.flatMap_nil, List.append_nil]
  rw [if_pos hcat]
  show (ordU [(normalize_unit u, q)]).map _ = _
  rw [hUs]
  simp only [List.map_cons, List.map_nil]
  rw [hid, bne_self_eq_false]

theorem c8_aux_vw
    (ordC : List (UnitCategory × List (ℚ × String)) → List (UnitCategory × List (ℚ × String)))
    (ordU : List (String × ℚ) → List (String × ℚ))
    (ordT : List (String × Nat) → List (String × Nat))
    (hC : ∀ l, (ordC l).Perm l) (hT : ∀ l, (ordT l).Perm l)
    (q : ℚ) (u : String)
    (hcat : get_unit_category u = .Volume ∨ get_unit_category u = .Weight) :
    aggregate_quantities ordC ordU ordT [(q, u)] =
      [⟨q, normalize_unit (normalize_unit u),
        normalize_unit u != normalize_unit (normalize_unit u)⟩] := by
  have hCs := List.perm_singleton.mp (hC [(get_unit_category u, [(q, u)])])
  have hTs := List.perm_singleton.mp (hT [(normalize_unit u, 1)])
  obtain ⟨hcatnorm, hfacnorm, f, hf, hfpos⟩ := volume_weight_normalize hcat
  have hnotco : ¬(get_unit_category u = .Count ∨ get_unit_category u = .Other) := by
    rcases hcat with h | h <;> rw [h] <;> simp
  have htarget : find_best_target_unit ordT [(q, u)] = normalize_unit u := by
    unfold find_best_target_unit
    show ((maxByCountLast (ordT [(normalize_unit u, 1)])).map Prod.fst).getD "" = _
    rw [hTs]
    rfl
  have hconv : convert_quantity q u (normalize_unit u) = some q := by
    unfold convert_quantity
    rw [hcatnorm]
    rw [if_neg (by simp)]
    rw [if_neg hnotco]
    rw [conversion_factor_eq u] at hf
    rw [hfacnorm, conversion_factor_eq u, hf]
    show some (q * f / f) = some q
    rw [mul_div_cancel_right₀ q (ne_of_gt hfpos)]
  unfold aggregate_quantities
  rw [if_neg (by simp)]
  show (ordC [(get_unit_category u, [(q, u)])]).flatMap _ = _
  rw [hCs]
  simp only [List.flatMap_cons, List.flatMap_nil, List.append_nil]
  rw [if_neg hnotco]
  show [(⟨match convert_quantity q u (find_best_target_unit ordT [(q, u)]) with
      | some c => (0 : ℚ) + c
      | none => 0,
    normalize_unit (find_best_target_unit ordT [(q, u)]),
    ((convert_quantity q u (find_best_target_unit ordT [(q, u)])).isSome &&
      normalize_unit u != normalize_unit (find_best_target_unit ordT [(q, u)])) ||
      false⟩ : AggregatedQuantity)] = _
  rw [htarget, hconv]
  simp only [Option.isSome_some, Bool.true_and, Bool.or_false, zero_add]

/-- C8 counterexample: aggregating the single pair (1, "liters") yields the
entry (1, "l", is_converted = true), not (1, normalize_unit "liters", false):
`normalize_unit` maps "liters" to "L" but the aggregate re-normalizes the
target to "l" and flags a conversion because "L" differs from "l". -/
theorem c8_counterexample :
    aggregate_quantities id id id [(1, "liters")] = [⟨1, "l", true⟩] ∧
    normalize_unit ("liters") = "L" ∧
    aggregate_quantities id id id [(1, "liters")] ≠
      [⟨1, normalize_unit ("liters"), false⟩] := by
  refine ⟨by decide, by decide, by decide⟩

/-- C8 amended: for every HashMap iteration order (modelled as an arbitrary
permutation for each of the three maps) and every single (quantity, unit)
pair, aggregation returns exactly one entry whose quantity is q, whose unit
is `normalize_unit (normalize_unit u)` (the doubly normalized form: equal to
`normalize_unit u` except for the liter family, where "L" re-normalizes to
"l"), and whose is_converted flag is set exactly when the two normalizations
disagree (that is, only for liter/liters inputs). -/
theorem c8_amended :
    ∀ (ordC : List (UnitCategory × List (ℚ × String)) → List (UnitCategory × List (ℚ × String)))
      (ordU : List (String × ℚ) → List (String × ℚ))
      (ordT : List (String × Nat) → List (String × Nat)),
      (∀ l, (ordC l).Perm l) → (∀ l, (ordU l).Perm l) → (∀ l, (ordT l).Perm l) →
      ∀ (q : ℚ) (u : String),
        aggregate_quantities ordC ordU ordT [(q, u)] =
          [⟨q, normalize_unit (normalize_unit u),
            normalize_unit u != normalize_unit (normalize_unit u)⟩] := by
  intro ordC ordU ordT hC hU hT q u
  cases hcat : get_unit_category u with
  | Volume => exact c8_aux_vw ordC ordU ordT hC hT q u (Or.inl hcat)
  | Weight => exact c8_aux_vw ordC ordU ordT hC hT q u (Or.inr hcat)
  | Count => exact c8_aux_co ordC ordU ordT hC hU q u (Or.inl hcat)
  | Other => exact c8_aux_co ordC ordU ordT hC hU q u (Or.inr hcat)

/-- C8 witness: the amended theorem applied at the identity iteration order
and the pair (1, "cup"); conversion factors cancel exactly. -/
theorem c8_witness :
    aggregate_quantities id id id [(1, "cup")] = [⟨1, "cup", false⟩] := by
  have h := c8_amended id id id (fun l => List.Perm.refl l) (fun l => List.Perm.refl l)
    (fun l => List.Perm.refl l) 1 ("cup")
  rw [h]
  decide

/-! Claim C2. -/

theorem find_best_target_unit_eq (ordT : List (String × Nat) → List (String × Nat))
    (items : List (ℚ × String)) :
    find_best_target_unit ordT items =
      ((maxByCountLast (ordT (buildCounts items))).map Prod.fst).getD "" := rfl

theorem bumpCount_alookup (v u : String) (acc : List (String × Nat)) :
    alookup u (bumpCount v acc) =
      if u = v then some (((alookup u acc).getD 0) + 1) else alookup u acc := by
  induction acc with
  | nil =>
    by_cases h : u = v
    · subst h
      simp [bumpCount, alookup]
    · have h2 : ¬(v = u) := fun hh => h hh.symm
      simp [bumpCount, alookup, h, h2]
  | cons kv rest ih =>
    obtain ⟨k, c⟩ := kv
    by_cases hk : k = v
    · subst hk
      by_cases hu : u = k
      · subst hu
        simp [bumpCount, alookup]
      · have h2 : ¬(k = u) := fun hh => hu hh.symm
        simp [bumpCount, alookup, hu, h2]
    · by_cases hu : u = k
      · subst hu
        simp [bumpCount, alookup, hk]
      · have h2 : ¬(k = u) := fun hh => hu hh.symm
        simp [bumpCount, alookup, hk, h2, ih]

theorem bumpCount_keys_eq (v : String) (acc : List (String × Nat))
    (h : ∀ kv ∈ acc, kv.1 ≠ v) :
    (bumpCount v acc).map Prod.fst = acc.map Prod.fst ++ [v] := by
  induction acc with
  | nil => rfl
  | cons kv rest ih =>
    obtain ⟨k, c⟩ := kv
    have hk : k ≠ v := h (k, c) (List.mem_cons_self _ _)
    simp only [bumpCount, if_neg hk, List.map_cons, List.cons_append, List.cons.injEq]
    exact ⟨by trivial, ih (fun kv2 hm => h kv2 (List.mem_cons_of_mem _ hm))⟩

theorem bumpCount_keys_mem (v : String) (acc : List (String × Nat))
    (h : ∃ kv ∈ acc, kv.1 = v) :
    (bumpCount v acc).map Prod.fst = acc.map Prod.fst := by
  induction acc with
  | nil => simp at h
  | cons kv rest ih =>
    obtain ⟨k, c⟩ := kv
    by_cases hk : k = v
    · subst hk
      simp [bumpCount]
    · have h2 : ∃ kv2 ∈ rest, kv2.1 = v := by
        obtain ⟨kv2, hm, he⟩ := h
        rcases List.mem_cons.mp hm with rfl | hm2
        · exact absurd he hk
        · exact ⟨kv2, hm2, he⟩
      simp only [bumpCount, if_neg hk, List.map_cons, List.cons.injEq]
      exact ⟨by trivial, ih h2⟩

theorem bumpCount_nodup (v : String) (acc : List (String × Nat))
    (hnd : (acc.map Prod.fst).Nodup) :
    ((bumpCount v acc).map Prod.fst).Nodup := by
  by_cases h : ∀ kv ∈ acc, kv.1 ≠ v
  · rw [bumpCount_keys_eq v acc h]
    have hv : v ∉ acc.map Prod.fst := by
      intro hm
      obtain ⟨kv, hkv, he⟩ := List.mem_map.mp hm
      exact h kv hkv he
    rw [List.nodup_append]
    refine ⟨hnd, List.nodup_singleton v, ?_⟩
    intro a ha hb
    rw [List.mem_singleton] at hb
    subst hb
    exact hv ha
  · push_neg at h
    obtain ⟨kv, hkv, he⟩ := h
    rw [bumpCount_keys_mem v acc ⟨kv, hkv, he⟩]
    exact hnd

theorem buildCounts_go (items : List (ℚ × String)) : ∀ (acc : List (String × Nat)) (u : String),
    alookup u (items.foldl (fun a p => bumpCount (normalize_unit p.2) a) acc) =
      if countNorm items u = 0 then alookup u acc
      else some ((alookup u acc).getD 0 + countNorm items u) := by
  induction items with
  | nil =>
    intro acc u
    simp [countNorm]
  | cons p items' ih =>
    intro acc u
    rw [List.foldl_cons, ih (bumpCount (normalize_unit p.2) acc) u, bumpCount_alookup]
    have hc : countNorm (p :: items') u =
        countNorm items' u + (if normalize_unit p.2 = u then 1 else 0) := by
      simp [countNorm, List.countP_cons]
    rw [hc]
    by_cases h1 : u = normalize_unit p.2
    · rw [if_pos h1, if_pos h1.symm]
      by_cases h2 : countNorm items' u = 0
      · rw [if_pos h2, h2]
        simp
      · rw [if_neg h2]
        have h3 : ¬(countNorm items' u + 1 = 0) := by omega
        rw [if_neg h3]
        simp only [Option.getD_some, Option.some.injEq]
        omega
    · rw [if_neg h1, if_neg (fun hh : normalize_unit p.2 = u => h1 hh.symm)]
      simp

theorem buildCounts_nodup (items : List (ℚ × String)) :
    ((buildCounts items).map Prod.fst).Nodup := by
  have hgen : ∀ (acc : List (String × Nat)), (acc.map Prod.fst).Nodup →
      ((items.foldl (fun a p => bumpCount (normalize_unit p.2) a) acc).map Prod.fst).Nodup := by
    induction items with
    | nil => intro acc h; exact h
    | cons p items' ih =>
      intro acc h
      rw [List.foldl_cons]
      exact ih _ (bumpCount_nodup _ _ h)
  exact hgen [] List.nodup_nil

theorem alookup_of_mem_nodup {l : List (String × Nat)} {u : String} {c : Nat}
    (hnd : (l.map Prod.fst).Nodup) (hm : (u, c) ∈ l) : alookup u l = some c := by
  induction l with
  | nil => simp at hm
  | cons kv rest ih =>
    obtain ⟨k, c2⟩ := kv
    rcases List.mem_cons.mp hm with he | hm2
    · injection he with h1 h2
      subst h1
      subst h2
      simp [alookup]
    · have hk : k ≠ u := by
        intro hk2
        subst hk2
        have : k ∈ rest.map Prod.fst := List.mem_map.mpr ⟨(k, c), hm2, rfl⟩
        exact (List.nodup_cons.mp (by simpa using hnd)).1 this
      simp only [alookup, if_neg hk]
      exact ih (List.nodup_cons.mp (by simpa using hnd)).2 hm2

theorem alookup_mem {l : List (String × Nat)} {u : String} {c : Nat}
    (h : alookup u l = some c) : (u, c) ∈ l := by
  induction l with
  | nil => simp [alookup] at h
  | cons kv rest ih =>
    obtain ⟨k, c2⟩ := kv
    by_cases hk : k = u
    · subst hk
      rw [alookup, if_pos rfl] at h
      injection h with h1
      subst h1
      exact List.mem_cons_self _ _
    · rw [alookup, if_neg hk] at h
      exact List.mem_cons_of_mem _ (ih h)

theorem maxByCountLast_go (l : List (String × Nat)) : ∀ b : String × Nat,
    ∃ p, l.foldl
        (fun best x =>
          match best with
          | none => some x
          | some bb => if bb.2 ≤ x.2 then some x else best)
        (some b) = some p ∧
      (p ∈ l ∨ p = b) ∧ b.2 ≤ p.2 ∧ ∀ x ∈ l, x.2 ≤ p.2 := by
  induction l with
  | nil =>
    intro b
    exact ⟨b, rfl, Or.inr rfl, le_refl _, by simp⟩
  | cons x l' ih =>
    intro b
    rw [List.foldl_cons]
    by_cases hbx : b.2 ≤ x.2
    · obtain ⟨p, hp, hmem, hge, hall⟩ := ih x
      refine ⟨p, ?_, ?_, ?_, ?_⟩
      · show List.foldl _ (if b.2 ≤ x.2 then some x else some b) l' = some p
        rw [if_pos hbx]
        exact hp
      · rcases hmem with h | h
        · exact Or.inl (List.mem_cons_of_mem _ h)
        · exact Or.inl (h ▸ List.mem_cons_self _ _)
      · exact le_trans hbx hge
      · intro y hy
        rcases List.mem_cons.mp hy with rfl | hy2
        · exact hge
        · exact hall y hy2
    · obtain ⟨p, hp, hmem, hge, hall⟩ := ih b
      refine ⟨p, ?_, ?_, ?_, ?_⟩
      · show List.foldl _ (if b.2 ≤ x.2 then some x else some b) l' = some p
        rw [if_neg hbx]
        exact hp
      · rcases hmem with h | h
        · exact Or.inl (List.mem_cons_of_mem _ h)
        · exact Or.inr h
      · exact hge
      · intro y hy
        rcases List.mem_cons.mp hy with rfl | hy2
        · exact le_trans (Nat.le_of_not_le hbx) hge
        · exact hall y hy2

theorem maxByCountLast_nonempty (y : String × Nat) (t : List (String × Nat)) :
    ∃ p, maxByCountLast (y :: t) = some p ∧ p ∈ y :: t ∧ ∀ x ∈ y :: t, x.2 ≤ p.2 := by
  obtain ⟨p, hp, hmem, hge, hall⟩ := maxByCountLast_go t y
  refine ⟨p, hp, ?_, ?_⟩
  · rcases hmem with h | h
    · exact List.mem_cons_of_mem _ h
    · exact h ▸ List.mem_cons_self _ _
  · intro x hx
    rcases List.mem_cons.mp hx with rfl | hx2
    · exact hge
    · exact hall x hx2

/-- C2 counterexample: on the tied input [(1, cup), (1, tbsp)] two runs that
differ only in the HashMap iteration order of the counts map (identity vs
reversal, a permutation) produce different single entries — one totals in
tbsp, the other in cup — so the output multiset is not a function of the
input. -/
theorem c2_counterexample :
    (List.reverse [(("cup" : String), (1 : Nat)), ("tbsp", 1)]).Perm
      [(("cup" : String), (1 : Nat)), ("tbsp", 1)] ∧
    (aggregate_quantities id id id [(1, "cup"), (1, "tbsp")]).map AggregatedQuantity.unit =
      ["tbsp"] ∧
    (aggregate_quantities id id List.reverse [(1, "cup"), (1, "tbsp")]).map
      AggregatedQuantity.unit = ["cup"] ∧
    aggregate_quantities id id id [(1, "cup"), (1, "tbsp")] ≠
      aggregate_quantities id id List.reverse [(1, "cup"), (1, "tbsp")] := by
  refine ⟨by decide, by decide, by decide, by decide⟩

/-- C2 amended: for every iteration order of the counts map (any permutation
of insertion order, as Rust's HashMap may produce in a given run), the
target unit chosen by `find_best_target_unit` is a normalized unit of
maximal frequency among the group's entries; which maximal unit wins on a
tie depends on that iteration order, so the output is reproducible across
runs only when the maximum is unique. -/
theorem c2_amended :
    ∀ ordT : List (String × Nat) → List (String × Nat),
      (∀ l, (ordT l).Perm l) →
      ∀ items : List (ℚ × String), items ≠ [] →
        0 < countNorm items (find_best_target_unit ordT items) ∧
        ∀ u, countNorm items u ≤ countNorm items (find_best_target_unit ordT items) := by
  intro ordT hT items hne
  have hchar : ∀ u, alookup u (buildCounts items) =
      if countNorm items u = 0 then none else some (countNorm items u) := by
    intro u
    have h := buildCounts_go items [] u
    simpa [alookup] using h
  obtain ⟨p0, items', rfl⟩ : ∃ p0 items', items = p0 :: items' := by
    cases items with
    | nil => exact absurd rfl hne
    | cons a b => exact ⟨a, b, rfl⟩
  have hpos0 : countNorm (p0 :: items') (normalize_unit p0.2) ≠ 0 := by
    simp [countNorm, List.countP_cons]
  have hbc_ne : buildCounts (p0 :: items') ≠ [] := by
    intro hempty
    have h := hchar (normalize_unit p0.2)
    rw [hempty, if_neg hpos0] at h
    exact Option.noConfusion h
  obtain ⟨y, t, hyt⟩ : ∃ y t, ordT (buildCounts (p0 :: items')) = y :: t := by
    cases h : ordT (buildCounts (p0 :: items')) with
    | nil =>
      have hperm := hT (buildCounts (p0 :: items'))
      rw [h] at hperm
      exact absurd (List.Perm.eq_nil hperm.symm) hbc_ne
    | cons a b => exact ⟨a, b, rfl⟩
  obtain ⟨pmax, hmax, hmem, hall⟩ := maxByCountLast_nonempty y t
  have hfb : find_best_target_unit ordT (p0 :: items') = pmax.1 := by
    rw [find_best_target_unit_eq, hyt, hmax]
    rfl
  have hmemc : pmax ∈ buildCounts (p0 :: items') := by
    have hperm := hT (buildCounts (p0 :: items'))
    exact hperm.mem_iff.mp (hyt ▸ hmem)
  have hl : alookup pmax.1 (buildCounts (p0 :: items')) = some pmax.2 :=
    alookup_of_mem_nodup (buildCounts_nodup _) hmemc
  have hcnt : countNorm (p0 :: items') pmax.1 = pmax.2 ∧
      countNorm (p0 :: items') pmax.1 ≠ 0 := by
    have h2 := hchar pmax.1
    rw [hl] at h2
    by_cases h3 : countNorm (p0 :: items') pmax.1 = 0
    · rw [if_pos h3] at h2
      exact Option.noConfusion h2
    · rw [if_neg h3] at h2
      injection h2 with h4
      exact ⟨h4.symm, h3⟩
  constructor
  · rw [hfb]
    have h5 := hcnt.2
    omega
  · intro u
    rw [hfb]
    by_cases hu : countNorm (p0 :: items') u = 0
    · rw [hu]
      exact Nat.zero_le _
    · have hl2 : alookup u (buildCounts (p0 :: items')) =
          some (countNorm (p0 :: items') u) := by
        rw [hchar u, if_neg hu]
      have hmem3 : (u, countNorm (p0 :: items') u) ∈ y :: t := by
        have hperm := hT (buildCounts (p0 :: items'))
        exact hyt ▸ hperm.mem_iff.mpr (alookup_mem hl2)
      have h6 := hall _ hmem3
      rw [hcnt.1]
      exact h6

/-- C2 witness: the amended theorem at the identity iteration order and a
one-element group: the chosen target unit occurs and is most frequent. -/
theorem c2_witness :
    0 < countNorm [(1, "cup")] (find_best_target_unit id [(1, "cup")]) ∧
    countNorm [(1, "cup")] ("tbsp") ≤
      countNorm [(1, "cup")] (find_best_target_unit id [(1, "cup")]) := by
  have h := c2_amended id (fun l => List.Perm.refl l) [(1, "cup")] (by decide)
  exact ⟨h.1, h.2 ("tbsp")⟩

/-! Claim C6. -/

theorem decodeAux_no_amp : ∀ (n : Nat) (l : List Char), ('&') ∉ l → decodeAux n l = l := by
  intro n
  induction n with
  | zero =>
    intro l _
    cases l with
    | nil => rfl
    | cons c cs => rfl
  | succ n ih =>
    intro l hd
    cases l with
    | nil => rfl
    | cons c cs =>
      have hc : ¬(c = ('&')) := fun hh => hd (List.mem_cons.mpr (Or.inl hh.symm))
      simp only [decodeAux, if_neg hc]
      exact congrArg (List.cons c) (ih cs (fun hm => hd (List.mem_cons_of_mem _ hm)))

theorem decodeHtmlChars_no_amp (l : List Char) (hd : ('&') ∉ l) :
    decodeHtmlChars l = l :=
  decodeAux_no_amp l.length l hd

theorem mem_trimLeft {c : Char} {l : List Char} (h : c ∈ trimLeft l) : c ∈ l :=
  (List.dropWhile_sublist rustIsWs).subset h

theorem mem_trimRight {c : Char} {l : List Char} (h : c ∈ trimRight l) : c ∈ l := by
  rw [trimRight, List.mem_reverse] at h
  have h2 := (List.dropWhile_sublist rustIsWs).subset h
  rw [List.mem_reverse] at h2
  exact h2

theorem mem_rustTrim {c : Char} {l : List Char} (h : c ∈ rustTrim l) : c ∈ l :=
  mem_trimLeft (mem_trimRight h)

theorem mem_splitOnChar {sep : Char} : ∀ {l part : List Char},
    part ∈ splitOnChar sep l → ∀ {c : Char}, c ∈ part → c ∈ l := by
  intro l
  induction l with
  | nil =>
    intro part hp c hc
    simp [splitOnChar] at hp
    subst hp
    simp at hc
  | cons a as ih =>
    intro part hp c hc
    simp only [splitOnChar] at hp
    by_cases hs : a = sep
    · rw [if_pos hs] at hp
      rcases List.mem_cons.mp hp with rfl | hp2
      · simp at hc
      · exact List.mem_cons_of_mem _ (ih hp2 hc)
    · rw [if_neg hs] at hp
      cases hrec : splitOnChar sep as with
      | nil =>
        rw [hrec] at hp
        simp only [] at hp
        rw [List.mem_singleton] at hp
        subst hp
        rw [List.mem_singleton] at hc
        subst hc
        exact List.mem_cons_self _ _
      | cons h0 t =>
        rw [hrec] at hp
        simp only [] at hp
        rcases List.mem_cons.mp hp with rfl | hp2
        · rcases List.mem_cons.mp hc with rfl | hc2
          · exact List.mem_cons_self _ _
          · exact List.mem_cons_of_mem _
              (ih (by rw [hrec]; exact List.mem_cons_self _ _) hc2)
        · exact List.mem_cons_of_mem _
            (ih (by rw [hrec]; exact List.mem_cons_of_mem _ hp2) hc)

theorem mem_splitWsGo : ∀ (l : List Char) {part : List Char},
    part ∈ l.foldr
      (fun c acc =>
        if rustIsWs c then [] :: acc
        else
          match acc with
          | h :: t => (c :: h) :: t
          | [] => [[c]])
      [] → ∀ {c : Char}, c ∈ part → c ∈ l := by
  intro l
  induction l with
  | nil =>
    intro part hp c hc
    simp at hp
  | cons a as ih =>
    intro part hp c hc
    rw [List.foldr_cons] at hp
    by_cases hw : rustIsWs a = true
    · rw [if_pos hw] at hp
      rcases List.mem_cons.mp hp with rfl | hp2
      · simp at hc
      · exact List.mem_cons_of_mem _ (ih hp2 hc)
    · rw [if_neg hw] at hp
      cases hrec : as.foldr
          (fun c acc =>
            if rustIsWs c then [] :: acc
            else
              match acc with
              | h :: t => (c :: h) :: t
              | [] => [[c]])
          [] with
      | nil =>
        rw [hrec] at hp
        simp only [] at hp
        rw [List.mem_singleton] at hp
        subst hp
        rw [List.mem_singleton] at hc
        subst hc
        exact List.mem_cons_self _ _
      | cons h0 t =>
        rw [hrec] at hp
        simp only [] at hp
        rcases List.mem_cons.mp hp with rfl | hp2
        · rcases List.mem_cons.mp hc with rfl | hc2
          · exact List.mem_cons_self _ _
          · exact List.mem_cons_of_mem _
              (ih (by rw [hrec]; exact List.mem_cons_self _ _) hc2)
        · exact List.mem_cons_of_mem _
            (ih (by rw [hrec]; exact List.mem_cons_of_mem _ hp2) hc)

theorem mem_splitWs {l part : List Char} (hp : part ∈ splitWs l) {c : Char}
    (hc : c ∈ part) : c ∈ l :=
  mem_splitWsGo l (List.mem_of_mem_filter hp) hc

theorem mem_pqGo : ∀ (l : List Char) (f : Bool) {c : Char}, c ∈ (pqGo l f).1 → c ∈ l := by
  intro l
  induction l with
  | nil =>
    intro f c hc
    simp [pqGo] at hc
  | cons a as ih =>
    intro f c hc
    simp only [pqGo] at hc
    by_cases h1 : numChar a = true
    · rw [if_pos h1] at hc
      rcases List.mem_cons.mp hc with rfl | hc2
      · exact List.mem_cons_self _ _
      · exact List.mem_cons_of_mem _ (ih true hc2)
    · rw [if_neg h1] at hc
      by_cases h2 : (rustIsWs a && f) = true
      · rw [if_pos h2] at hc
        cases as with
        | nil => simp at hc
        | cons d ds =>
          have hc2 : c ∈ (if d.isDigit = true then
              (a :: (pqGo (d :: ds) true).1, (pqGo (d :: ds) true).2)
            else ([], a :: d :: ds)).1 := hc
          by_cases h3 : d.isDigit = true
          · rw [if_pos h3] at hc2
            rcases List.mem_cons.mp hc2 with rfl | hc3
            · exact List.mem_cons_self _ _
            · exact List.mem_cons_of_mem _ (ih true hc3)
          · rw [if_neg h3] at hc2
            simp at hc2
      · rw [if_neg h2] at hc
        simp at hc

theorem firstIdxOf_eq_none {x : Char} : ∀ {l : List Char}, x ∉ l → firstIdxOf x l = none := by
  intro l
  induction l with
  | nil => intro h; rfl
  | cons c cs ih =>
    intro h
    simp only [firstIdxOf]
    rw [if_neg (fun hh : c = x => h (List.mem_cons.mpr (Or.inl hh.symm)))]
    rw [ih (fun hh => h (List.mem_cons_of_mem _ hh))]
    rfl

theorem parseF64_nonneg (l : List Char) (hd : ('-') ∉ l) (q : ℚ)
    (h : parseF64 l = some q) : 0 ≤ q := by
  have hh : ¬(l.head? = some ('-')) := fun hm => hd (List.mem_of_mem_head? hm)
  simp only [parseF64, if_neg hh] at h
  split at h
  · split at h
    · injection h with h2
      rw [← h2]
      exact mul_nonneg (by norm_num) (by positivity)
    · exact Option.noConfusion h
  · split at h
    · injection h with h2
      rw [← h2]
      exact mul_nonneg (by norm_num) (by positivity)
    · exact Option.noConfusion h
  · exact Option.noConfusion h

theorem parseF64_getD_nonneg (l : List Char) (hd : ('-') ∉ l) (d : ℚ) (hdq : 0 ≤ d) :
    0 ≤ (parseF64 l).getD d := by
  cases h : parseF64 l with
  | none => simpa using hdq
  | some q => simpa using parseF64_nonneg l hd q h

theorem parse_fraction_nonneg (l : List Char) (hd : ('-') ∉ l) : 0 ≤ parse_fraction l := by
  simp only [parse_fraction]
  split
  · rename_i a b heq
    have ha : ('-') ∉ rustTrim a := fun hm =>
      hd (mem_splitOnChar (by rw [heq]; exact List.mem_cons_self _ _) (mem_rustTrim hm))
    have hb : ('-') ∉ rustTrim b := fun hm =>
      hd (mem_splitOnChar (by rw [heq]; exact List.mem_cons_of_mem _ (List.mem_cons_self _ _))
        (mem_rustTrim hm))
    split_ifs
    · exact div_nonneg (parseF64_getD_nonneg _ ha 0 (le_refl 0))
        (parseF64_getD_nonneg _ hb 1 (by norm_num))
    · exact le_refl 0
  · exact le_refl 0

theorem pnsCore_nonneg (s : List Char) (hd : ('-') ∉ s) : 0 ≤ pnsCore s := by
  simp only [pnsCore]
  split
  · rename_i p0 p1 heq
    have h0 : ('-') ∉ p0 := fun hm =>
      hd (mem_splitWs (by rw [heq]; exact List.mem_cons_self _ _) hm)
    have h1 : ('-') ∉ p1 := fun hm =>
      hd (mem_splitWs (by rw [heq]; exact List.mem_cons_of_mem _ (List.mem_cons_self _ _)) hm)
    exact add_nonneg (parseF64_getD_nonneg p0 h0 0 (le_refl 0)) (parse_fraction_nonneg p1 h1)
  · split_ifs
    · exact parse_fraction_nonneg s hd
    · exact parseF64_getD_nonneg s hd 0 (le_refl 0)

theorem parse_number_string_nonneg (l : List Char) (hd : ('-') ∉ l) :
    0 ≤ parse_number_string l := by
  have hds : ('-') ∉ rustTrim l := fun h => hd (mem_rustTrim h)
  simp only [parse_number_string]
  rw [firstIdxOf_eq_none hds]
  exact pnsCore_nonneg (rustTrim l) hds

theorem parse_quantity_nonneg (l : List Char) (hd : ('-') ∉ l) :
    0 ≤ (parse_quantity l).1 := by
  simp only [parse_quantity]
  by_cases he : (pqGo (l.dropWhile rustIsWs) false).1.isEmpty = true
  · rw [if_pos he]
  · rw [if_neg he]
    have hdq : ('-') ∉ (pqGo (l.dropWhile rustIsWs) false).1 := fun hm =>
      hd ((List.dropWhile_sublist rustIsWs).subset (mem_pqGo _ false hm))
    exact parse_number_string_nonneg _ hdq

theorem parse_quantity_no_token (l : List Char)
    (he : (pqGo (l.dropWhile rustIsWs) false).1 = []) :
    (parse_quantity l).1 = 0 := by
  simp [parse_quantity, he]

set_option maxHeartbeats 2000000 in
/-- C6 counterexample: parse_ingredient("-3 cups flour") returns quantity
-3 < 0 (the quantity scanner collects the dash and f64 parsing accepts the
sign, since the range branch only fires for a dash at index > 0), refuting
quantity >= 0; and parse_ingredient("0 cups flour") returns quantity 0 even
though a leading numeric token WAS detected, refuting "0 exactly when no
leading numeric token was detected". -/
theorem c6_counterexample :
    parse_ingredient ("-3 cups flour") = some ⟨-3, "cups", "flour"⟩ ∧
    ¬((0 : ℚ) ≤ -3) ∧
    parse_ingredient ("0 cups flour") = some ⟨0, "cups", "flour"⟩ ∧
    (pqGo ((rustTrim (decodeHtmlChars ("0 cups flour").toList)).dropWhile rustIsWs)
      false).1 ≠ [] := by
  refine ⟨by decide, by decide, by decide, by decide⟩

set_option maxHeartbeats 2000000 in
/-- C6 amended: whenever the input contains no dash and no ampersand (so
entity decoding is the identity, for the crate as for the model), every
ingredient parse that completes without a panic has quantity >= 0; and
whenever the quantity scanner collects no numeric token, the quantity is
exactly 0 (the converse fails: an explicit leading 0 also gives
quantity 0). -/
theorem c6_amended (s : String) (r : ParsedIngredient)
    (hdash : ('-') ∉ s.toList) (hamp : ('&') ∉ s.toList)
    (h : parse_ingredient s = some r) :
    0 ≤ r.quantity ∧
    ((pqGo ((rustTrim (decodeHtmlChars s.toList)).dropWhile rustIsWs) false).1 = [] →
      r.quantity = 0) := by
  have hd : ('-') ∉ decodeHtmlChars s.toList := by
    rw [decodeHtmlChars_no_amp s.toList hamp]
    exact hdash
  have hq : r.quantity = (parse_quantity (rustTrim (decodeHtmlChars s.toList))).1 := by
    cases hpu : parse_unit (rustTrim (parse_quantity (rustTrim (decodeHtmlChars s.toList))).2) with
    | none =>
      have he : parseIngredientChars s.toList = none := by
        simp only [parseIngredientChars, hpu]
      rw [parse_ingredient, he] at h
      exact Option.noConfusion h
    | some p =>
      obtain ⟨u, nm⟩ := p
      have he : parseIngredientChars s.toList =
          some ⟨(parse_quantity (rustTrim (decodeHtmlChars s.toList))).1, u.asString,
            (rustTrim nm).asString⟩ := by
        simp only [parseIngredientChars, hpu]
      rw [parse_ingredient, he, Option.some.injEq] at h
      rw [← h]
  have hdt : ('-') ∉ rustTrim (decodeHtmlChars s.toList) := fun hm => hd (mem_rustTrim hm)
  refine ⟨?_, ?_⟩
  · rw [hq]
    exact parse_quantity_nonneg _ hdt
  · intro he
    rw [hq]
    exact parse_quantity_no_token _ he

set_option maxHeartbeats 2000000 in
/-- C6 witness: the amended theorem at "2 cups flour", which has no dash
and no ampersand and parses to quantity 2. -/
theorem c6_witness :
    ('-') ∉ ("2 cups flour").toList ∧ ('&') ∉ ("2 cups flour").toList ∧
    parse_ingredient ("2 cups flour") = some ⟨2, "cups", "flour"⟩ ∧
    (0 ≤ (⟨2, "cups", "flour"⟩ : ParsedIngredient).quantity ∧
      ((pqGo ((rustTrim (decodeHtmlChars ("2 cups flour").toList)).dropWhile rustIsWs)
          false).1 = [] →
        (⟨2, "cups", "flour"⟩ : ParsedIngredient).quantity = 0)) :=
  ⟨by decide, by decide, by decide,
    c6_amended ("2 cups flour") ⟨2, "cups", "flour"⟩ (by decide) (by decide) (by decide)⟩

/-! Claim C1: grammar of quantity tokens and supporting lemmas. -/

theorem digit_toNat_bounds (c : Char) (h : c.isDigit = true) :
    48 ≤ c.toNat ∧ c.toNat ≤ 57 := by
  rw [Char.isDigit] at h
  have h1 := Bool.and_elim_left h
  have h2 := Bool.and_elim_right h
  exact ⟨of_decide_eq_true h1, of_decide_eq_true h2⟩

theorem not_ws_of_digit (c : Char) (h : c.isDigit = true) : rustIsWs c = false := by
  have hb := digit_toNat_bounds c h
  by_contra hw
  rw [Bool.not_eq_false, rustIsWs] at hw
  have hm : c.toNat ∈ wsCodes := by
    simpa [List.contains_iff_exists_mem_beq] using hw
  simp [wsCodes] at hm
  omega

theorem digit_ne_of_not_digit (c x : Char) (h : c.isDigit = true)
    (hx : x.isDigit = false) : c ≠ x := by
  intro he
  rw [he, hx] at h
  exact Bool.noConfusion h

theorem not_mem_of_all_digit {l : List Char} (h : l.all Char.isDigit = true)
    {x : Char} (hx : x.isDigit = false) : x ∉ l := by
  intro hm
  exact absurd (List.all_eq_true.mp h x hm) (by rw [hx]; exact Bool.noConfusion)

theorem contains_false {x : Char} {l : List Char} (h : x ∉ l) : l.contains x = false := by
  by_contra hb
  rw [Bool.not_eq_false] at hb
  exact h (List.elem_iff.mp hb)

theorem contains_true {x : Char} {l : List Char} (h : x ∈ l) : l.contains x = true :=
  List.elem_iff.mpr h

theorem trimLeft_cons_nonws {c : Char} (l : List Char) (hc : rustIsWs c = false) :
    trimLeft (c :: l) = c :: l := by
  rw [trimLeft, List.dropWhile_cons, hc]
  simp

theorem trimRight_concat_nonws {e : Char} (l : List Char) (he : rustIsWs e = false) :
    trimRight (l ++ [e]) = l ++ [e] := by
  rw [trimRight, List.reverse_append, List.reverse_singleton, List.singleton_append,
    List.dropWhile_cons, he]
  simp

theorem trimRight_concat_ws {e : Char} (l : List Char) (he : rustIsWs e = true) :
    trimRight (l ++ [e]) = trimRight l := by
  rw [trimRight, trimRight, List.reverse_append, List.reverse_singleton,
    List.singleton_append, List.dropWhile_cons, he]
  simp

theorem rustTrim_eq_self {l : List Char}
    (h1 : ∀ c, l.head? = some c → rustIsWs c = false)
    (h2 : ∀ c, l.getLast? = some c → rustIsWs c = false) : rustTrim l = l := by
  cases l with
  | nil => rfl
  | cons c m =>
    have hc : rustIsWs c = false := h1 c rfl
    rw [rustTrim, trimLeft_cons_nonws _ hc]
    have hne : (c :: m : List Char) ≠ [] := by simp
    have hlast := List.dropLast_append_getLast hne
    have he : rustIsWs ((c :: m).getLast hne) = false :=
      h2 _ (List.getLast?_eq_getLast _ hne)
    calc trimRight (c :: m) = trimRight ((c :: m).dropLast ++ [(c :: m).getLast hne]) := by
          rw [hlast]
      _ = (c :: m).dropLast ++ [(c :: m).getLast hne] := trimRight_concat_nonws _ he
      _ = c :: m := hlast

theorem trimLeft_length_le (l : List Char) : (trimLeft l).length ≤ l.length :=
  (List.dropWhile_sublist rustIsWs).length_le

theorem trimRight_length_le (l : List Char) : (trimRight l).length ≤ l.length := by
  rw [trimRight, List.length_reverse]
  calc (l.reverse.dropWhile rustIsWs).length ≤ l.reverse.length :=
        (List.dropWhile_sublist rustIsWs).length_le
    _ = l.length := List.length_reverse l

theorem trim_stable_parts {l : List Char} (h : rustTrim l = l) :
    trimLeft l = l ∧ trimRight l = l := by
  have hlen : l.length ≤ (trimLeft l).length := by
    calc l.length = (rustTrim l).length := by rw [h]
      _ ≤ (trimLeft l).length := trimRight_length_le _
  have hL : trimLeft l = l :=
    (List.dropWhile_sublist rustIsWs).eq_of_length
      (le_antisymm (trimLeft_length_le l) hlen)
  refine ⟨hL, ?_⟩
  rw [rustTrim, hL] at h
  exact h

theorem trim_stable_last {l : List Char} (h : rustTrim l = l) (hne : l ≠ []) :
    ∃ l0 e, l = l0 ++ [e] ∧ rustIsWs e = false := by
  rcases List.eq_nil_or_concat l with rfl | ⟨l0, e, hl⟩
  · exact absurd rfl hne
  · rw [List.concat_eq_append] at hl
    subst hl
    refine ⟨l0, e, rfl, ?_⟩
    by_contra hw
    rw [Bool.not_eq_false] at hw
    have hR := (trim_stable_parts h).2
    rw [trimRight_concat_ws _ hw] at hR
    have := trimRight_length_le l0
    rw [hR] at this
    simp at this

theorem splitOnChar_no_sep {sep : Char} : ∀ {l : List Char}, sep ∉ l →
    splitOnChar sep l = [l] := by
  intro l
  induction l with
  | nil => intro h; rfl
  | cons c cs ih =>
    intro h
    have hc : ¬(c = sep) := fun hh => h (List.mem_cons.mpr (Or.inl hh.symm))
    rw [splitOnChar, if_neg hc, ih (fun hm => h (List.mem_cons_of_mem _ hm))]

theorem splitOnChar_append {sep : Char} : ∀ {a : List Char} (b : List Char), sep ∉ a →
    splitOnChar sep (a ++ (sep :: b)) = a :: splitOnChar sep b := by
  intro a
  induction a with
  | nil =>
    intro b h
    rw [List.nil_append, splitOnChar, if_pos rfl]
  | cons c a' ih =>
    intro b h
    have hc : ¬(c = sep) := fun hh => h (List.mem_cons.mpr (Or.inl hh.symm))
    rw [List.cons_append, splitOnChar, if_neg hc,
      ih b (fun hm => h (List.mem_cons_of_mem _ hm))]

theorem wsGo_no_ws : ∀ {l : List Char}, (∀ c ∈ l, rustIsWs c = false) → l ≠ [] →
    l.foldr
      (fun c acc =>
        if rustIsWs c then [] :: acc
        else
          match acc with
          | h :: t => (c :: h) :: t
          | [] => [[c]])
      [] = [l] := by
  intro l
  induction l with
  | nil => intro _ h; exact absurd rfl h
  | cons c cs ih =>
    intro hws _
    rw [List.foldr_cons]
    cases cs with
    | nil => simp [hws c (List.mem_cons_self _ _)]
    | cons d ds =>
      rw [ih (fun x hx => hws x (List.mem_cons_of_mem _ hx)) (by simp)]
      rw [hws c (List.mem_cons_self _ _)]
      simp

theorem wsGo_sep : ∀ {a : List Char} (r : List Char), (∀ c ∈ a, rustIsWs c = false) →
    (∀ c ∈ r, rustIsWs c = false) → r ≠ [] →
    (a ++ ((' ') :: r)).foldr
      (fun c acc =>
        if rustIsWs c then [] :: acc
        else
          match acc with
          | h :: t => (c :: h) :: t
          | [] => [[c]])
      [] = a :: [r] := by
  intro a
  induction a with
  | nil =>
    intro r _ hr hrne
    rw [List.nil_append, List.foldr_cons, wsGo_no_ws hr hrne]
    rw [show rustIsWs (' ') = true by decide]
    simp
  | cons c a' ih =>
    intro r ha hr hrne
    rw [List.cons_append, List.foldr_cons, ih r (fun x hx => ha x (List.mem_cons_of_mem _ hx)) hr hrne]
    rw [ha c (List.mem_cons_self _ _)]
    simp

theorem splitWs_no_ws {l : List Char} (h : ∀ c ∈ l, rustIsWs c = false) (hne : l ≠ []) :
    splitWs l = [l] := by
  rw [splitWs, wsGo_no_ws h hne, List.filter_singleton]
  cases l with
  | nil => exact absurd rfl hne
  | cons c cs => rfl

theorem splitWs_sep {a : List Char} (r : List Char) (ha : ∀ c ∈ a, rustIsWs c = false)
    (hr : ∀ c ∈ r, rustIsWs c = false) (hane : a ≠ []) (hrne : r ≠ []) :
    splitWs (a ++ ((' ') :: r)) = [a, r] := by
  rw [splitWs, wsGo_sep r ha hr hrne]
  simp [hane, hrne]

theorem all_digit_no_ws {l : List Char} (h : l.all Char.isDigit = true) :
    ∀ c ∈ l, rustIsWs c = false :=
  fun c hc => not_ws_of_digit c (List.all_eq_true.mp h c hc)

theorem parseF64_digits {ds : List Char} (h1 : ds ≠ []) (h2 : ds.all Char.isDigit = true) :
    parseF64 ds = some ((digitsVal ds : ℚ)) := by
  have hh : ¬(ds.head? = some ('-')) := by
    intro hm
    have := List.mem_of_mem_head? hm
    exact not_mem_of_all_digit h2 (by decide) this
  have hdot : ('.') ∉ ds := not_mem_of_all_digit h2 (by decide)
  simp only [parseF64, if_neg hh]
  rw [splitOnChar_no_sep hdot]
  show (if ds ≠ [] ∧ ds.all Char.isDigit = true then some ((1 : ℚ) * (digitsVal ds : ℚ))
    else none) = some ((digitsVal ds : ℚ))
  rw [if_pos ⟨h1, h2⟩, one_mul]

theorem parseF64_decimal {a b : List Char} (ha1 : a ≠ []) (ha2 : a.all Char.isDigit = true)
    (hb1 : b ≠ []) (hb2 : b.all Char.isDigit = true) :
    parseF64 (a ++ (('.') :: b)) =
      some ((digitsVal a : ℚ) + (digitsVal b : ℚ) / 10 ^ b.length) := by
  obtain ⟨d, a', rfl⟩ : ∃ d a', a = d :: a' := by
    cases a with
    | nil => exact absurd rfl ha1
    | cons d a' => exact ⟨d, a', rfl⟩
  have hh : ¬(((d :: a') ++ (('.') :: b)).head? = some ('-')) := by
    rw [List.cons_append]
    intro hm
    injection hm with hm2
    exact digit_ne_of_not_digit d ('-') (List.all_eq_true.mp ha2 d (List.mem_cons_self _ _))
      (by decide) hm2
  have hdota : ('.') ∉ (d :: a') := not_mem_of_all_digit ha2 (by decide)
  have hdotb : ('.') ∉ b := not_mem_of_all_digit hb2 (by decide)
  simp only [parseF64, if_neg hh]
  rw [splitOnChar_append b hdota, splitOnChar_no_sep hdotb]
  show (if ((d :: a') ++ b) ≠ [] ∧ ((d :: a') ++ b).all Char.isDigit = true then
      some ((1 : ℚ) * ((digitsVal (d :: a') : ℚ) + (digitsVal b : ℚ) / 10 ^ b.length))
    else none) = some ((digitsVal (d :: a') : ℚ) + (digitsVal b : ℚ) / 10 ^ b.length)
  rw [if_pos ⟨by simp, by rw [List.all_append, ha2, hb2]; rfl⟩, one_mul]

theorem parse_fraction_eval {a b : List Char} (ha1 : a ≠ []) (ha2 : a.all Char.isDigit = true)
    (hb1 : b ≠ []) (hb2 : b.all Char.isDigit = true) (hb0 : digitsVal b ≠ 0) :
    parse_fraction (a ++ (('/') :: b)) = (digitsVal a : ℚ) / (digitsVal b : ℚ) := by
  have hsla : ('/') ∉ a := not_mem_of_all_digit ha2 (by decide)
  have hslb : ('/') ∉ b := not_mem_of_all_digit hb2 (by decide)
  have hta : rustTrim a = a := by
    apply rustTrim_eq_self
    · intro c hc
      exact all_digit_no_ws ha2 c (List.mem_of_mem_head? hc)
    · intro c hc
      exact all_digit_no_ws ha2 c (List.mem_of_mem_getLast? hc)
  have htb : rustTrim b = b := by
    apply rustTrim_eq_self
    · intro c hc
      exact all_digit_no_ws hb2 c (List.mem_of_mem_head? hc)
    · intro c hc
      exact all_digit_no_ws hb2 c (List.mem_of_mem_getLast? hc)
  have hbq : ((digitsVal b : ℚ)) ≠ 0 := Nat.cast_ne_zero.mpr hb0
  simp only [parse_fraction]
  rw [splitOnChar_append b hsla, splitOnChar_no_sep hslb]
  show (if (parseF64 (rustTrim b)).getD 1 ≠ 0 then
      (parseF64 (rustTrim a)).getD 0 / (parseF64 (rustTrim b)).getD 1 else 0) =
    (digitsVal a : ℚ) / (digitsVal b : ℚ)
  rw [hta, htb, parseF64_digits ha1 ha2, parseF64_digits hb1 hb2,
    Option.getD_some, Option.getD_some, if_pos hbq]

theorem pnsCore_int {ds : List Char} (h1 : ds ≠ []) (h2 : ds.all Char.isDigit = true) :
    pnsCore ds = ((digitsVal ds : ℚ)) := by
  simp only [pnsCore]
  rw [splitWs_no_ws (all_digit_no_ws h2) h1]
  show (if ds.contains ('/') = true then parse_fraction ds else (parseF64 ds).getD 0) =
    ((digitsVal ds : ℚ))
  rw [contains_false (not_mem_of_all_digit h2 (by decide)), parseF64_digits h1 h2,
    Option.getD_some]
  simp

theorem pnsCore_dec {a b : List Char} (ha1 : a ≠ []) (ha2 : a.all Char.isDigit = true)
    (hb1 : b ≠ []) (hb2 : b.all Char.isDigit = true) :
    pnsCore (a ++ (('.') :: b)) = (digitsVal a : ℚ) + (digitsVal b : ℚ) / 10 ^ b.length := by
  have hnws : ∀ c ∈ a ++ (('.') :: b), rustIsWs c = false := by
    intro c hc
    rcases List.mem_append.mp hc with hc2 | hc2
    · exact all_digit_no_ws ha2 c hc2
    · rcases List.mem_cons.mp hc2 with rfl | hc3
      · decide
      · exact all_digit_no_ws hb2 c hc3
  have hne : a ++ (('.') :: b) ≠ [] := by simp
  simp only [pnsCore]
  rw [splitWs_no_ws hnws hne]
  show (if (a ++ (('.') :: b)).contains ('/') = true then parse_fraction (a ++ (('.') :: b))
    else (parseF64 (a ++ (('.') :: b))).getD 0) = _
  have hsl : ('/') ∉ a ++ (('.') :: b) := by
    intro hm
    rcases List.mem_append.mp hm with hm2 | hm2
    · exact not_mem_of_all_digit ha2 (by decide) hm2
    · rcases List.mem_cons.mp hm2 with he | hm3
      · exact absurd he (by decide)
      · exact not_mem_of_all_digit hb2 (by decide) hm3
  rw [contains_false hsl, parseF64_decimal ha1 ha2 hb1 hb2, Option.getD_some]
  rfl

theorem pnsCore_frac {a b : List Char} (ha1 : a ≠ []) (ha2 : a.all Char.isDigit = true)
    (hb1 : b ≠ []) (hb2 : b.all Char.isDigit = true) (hb0 : digitsVal b ≠ 0) :
    pnsCore (a ++ (('/') :: b)) = (digitsVal a : ℚ) / (digitsVal b : ℚ) := by
  have hnws : ∀ c ∈ a ++ (('/') :: b), rustIsWs c = false := by
    intro c hc
    rcases List.mem_append.mp hc with hc2 | hc2
    · exact all_digit_no_ws ha2 c hc2
    · rcases List.mem_cons.mp hc2 with rfl | hc3
      · decide
      · exact all_digit_no_ws hb2 c hc3
  have hne : a ++ (('/') :: b) ≠ [] := by simp
  simp only [pnsCore]
  rw [splitWs_no_ws hnws hne]
  show (if (a ++ (('/') :: b)).contains ('/') = true then parse_fraction (a ++ (('/') :: b))
    else (parseF64 (a ++ (('/') :: b))).getD 0) = _
  rw [contains_true (List.mem_append.mpr (Or.inr (List.mem_cons_self _ _)))]
  exact parse_fraction_eval ha1 ha2 hb1 hb2 hb0

theorem pnsCore_mixed {a b c : List Char} (ha1 : a ≠ []) (ha2 : a.all Char.isDigit = true)
    (hb1 : b ≠ []) (hb2 : b.all Char.isDigit = true)
    (hc1 : c ≠ []) (hc2 : c.all Char.isDigit = true) (hc0 : digitsVal c ≠ 0) :
    pnsCore (a ++ ((' ') :: (b ++ (('/') :: c)))) =
      (digitsVal a : ℚ) + (digitsVal b : ℚ) / (digitsVal c : ℚ) := by
  have hr : ∀ x ∈ b ++ (('/') :: c), rustIsWs x = false := by
    intro x hx
    rcases List.mem_append.mp hx with hx2 | hx2
    · exact all_digit_no_ws hb2 x hx2
    · rcases List.mem_cons.mp hx2 with rfl | hx3
      · decide
      · exact all_digit_no_ws hc2 x hx3
  simp only [pnsCore]
  rw [splitWs_sep (b ++ (('/') :: c)) (all_digit_no_ws ha2) hr ha1 (by simp)]
  show (parseF64 a).getD 0 + parse_fraction (b ++ (('/') :: c)) = _
  rw [parseF64_digits ha1 ha2, Option.getD_some, parse_fraction_eval hb1 hb2 hc1 hc2 hc0]

theorem head?_append_cons {α : Type} (d : α) (a' rest : List α) :
    ((d :: a') ++ rest).head? = some d := by
  rw [List.cons_append]
  rfl

theorem getLast?_append_cons_ne {α : Type} (a : List α) (s : α) {b : List α} (hb : b ≠ []) :
    (a ++ (s :: b)).getLast? = b.getLast? := by
  cases b with
  | nil => exact absurd rfl hb
  | cons e b' =>
    rw [List.getLast?_append, List.getLast?_cons_cons]
    cases hg : (e :: b').getLast? with
    | none => simp at hg
    | some x => rfl

theorem qtyToken_no_dash {q : List Char} {v : ℚ} (hq : QtyToken q v) : ('-') ∉ q := by
  cases hq with
  | int ds h1 h2 => exact not_mem_of_all_digit h2 (by decide)
  | dec a b ha1 ha2 hb1 hb2 =>
    intro hm
    rcases List.mem_append.mp hm with hm2 | hm2
    · exact not_mem_of_all_digit ha2 (by decide) hm2
    · rcases List.mem_cons.mp hm2 with he | hm3
      · exact absurd he (by decide)
      · exact not_mem_of_all_digit hb2 (by decide) hm3
  | frac a b ha1 ha2 hb1 hb2 hb0 =>
    intro hm
    rcases List.mem_append.mp hm with hm2 | hm2
    · exact not_mem_of_all_digit ha2 (by decide) hm2
    · rcases List.mem_cons.mp hm2 with he | hm3
      · exact absurd he (by decide)
      · exact not_mem_of_all_digit hb2 (by decide) hm3
  | mixed a b c ha1 ha2 hb1 hb2 hc1 hc2 hc0 =>
    intro hm
    rcases List.mem_append.mp hm with hm2 | hm2
    · exact not_mem_of_all_digit ha2 (by decide) hm2
    · rcases List.mem_cons.mp hm2 with he | hm3
      · exact absurd he (by decide)
      · rcases List.mem_append.mp hm3 with hm4 | hm4
        · exact not_mem_of_all_digit hb2 (by decide) hm4
        · rcases List.mem_cons.mp hm4 with he | hm5
          · exact absurd he (by decide)
          · exact not_mem_of_all_digit hc2 (by decide) hm5

theorem qtyToken_head_digit {q : List Char} {v : ℚ} (hq : QtyToken q v) :
    ∀ x, q.head? = some x → x.isDigit = true := by
  cases hq with
  | int ds h1 h2 => exact fun x hx => List.all_eq_true.mp h2 x (List.mem_of_mem_head? hx)
  | dec a b ha1 ha2 hb1 hb2 =>
    intro x hx
    obtain ⟨d, a', rfl⟩ : ∃ d a', a = d :: a' := by
      cases a with
      | nil => exact absurd rfl ha1
      | cons d a' => exact ⟨d, a', rfl⟩
    rw [head?_append_cons] at hx
    injection hx with hx2
    exact List.all_eq_true.mp ha2 x (hx2 ▸ List.mem_cons_self _ _)
  | frac a b ha1 ha2 hb1 hb2 hb0 =>
    intro x hx
    obtain ⟨d, a', rfl⟩ : ∃ d a', a = d :: a' := by
      cases a with
      | nil => exact absurd rfl ha1
      | cons d a' => exact ⟨d, a', rfl⟩
    rw [head?_append_cons] at hx
    injection hx with hx2
    exact List.all_eq_true.mp ha2 x (hx2 ▸ List.mem_cons_self _ _)
  | mixed a b c ha1 ha2 hb1 hb2 hc1 hc2 hc0 =>
    intro x hx
    obtain ⟨d, a', rfl⟩ : ∃ d a', a = d :: a' := by
      cases a with
      | nil => exact absurd rfl ha1
      | cons d a' => exact ⟨d, a', rfl⟩
    rw [head?_append_cons] at hx
    injection hx with hx2
    exact List.all_eq_true.mp ha2 x (hx2 ▸ List.mem_cons_self _ _)

theorem qtyToken_last_digit {q : List Char} {v : ℚ} (hq : QtyToken q v) :
    ∀ x, q.getLast? = some x → x.isDigit = true := by
  cases hq with
  | int ds h1 h2 => exact fun x hx => List.all_eq_true.mp h2 x (List.mem_of_mem_getLast? hx)
  | dec a b ha1 ha2 hb1 hb2 =>
    intro x hx
    rw [getLast?_append_cons_ne a ('.') hb1] at hx
    exact List.all_eq_true.mp hb2 x (List.mem_of_mem_getLast? hx)
  | frac a b ha1 ha2 hb1 hb2 hb0 =>
    intro x hx
    rw [getLast?_append_cons_ne a ('/') hb1] at hx
    exact List.all_eq_true.mp hb2 x (List.mem_of_mem_getLast? hx)
  | mixed a b c ha1 ha2 hb1 hb2 hc1 hc2 hc0 =>
    intro x hx
    rw [getLast?_append_cons_ne a (' ') (by simp : b ++ (('/') :: c) ≠ []),
      getLast?_append_cons_ne b ('/') hc1] at hx
    exact List.all_eq_true.mp hc2 x (List.mem_of_mem_getLast? hx)

theorem qtyToken_trim {q : List Char} {v : ℚ} (hq : QtyToken q v) : rustTrim q = q :=
  rustTrim_eq_self
    (fun c hc => not_ws_of_digit c (qtyToken_head_digit hq c hc))
    (fun c hc => not_ws_of_digit c (qtyToken_last_digit hq c hc))

theorem parse_number_string_token {q : List Char} {v : ℚ} (hq : QtyToken q v) :
    parse_number_string q = v := by
  have hts := qtyToken_trim hq
  have hdash := qtyToken_no_dash hq
  have hcore : parse_number_string q = pnsCore q := by
    simp only [parse_number_string]
    rw [hts, firstIdxOf_eq_none hdash]
  rw [hcore]
  cases hq with
  | int ds h1 h2 => exact pnsCore_int h1 h2
  | dec a b ha1 ha2 hb1 hb2 => exact pnsCore_dec ha1 ha2 hb1 hb2
  | frac a b ha1 ha2 hb1 hb2 hb0 => exact pnsCore_frac ha1 ha2 hb1 hb2 hb0
  | mixed a b c ha1 ha2 hb1 hb2 hc1 hc2 hc0 => exact pnsCore_mixed ha1 ha2 hb1 hb2 hc1 hc2 hc0

theorem numChar_of_digit {c : Char} (h : c.isDigit = true) : numChar c = true := by
  rw [numChar, h]
  rfl

theorem pqGo_first {d : Char} (rest : List Char) (hd : numChar d = true) :
    pqGo (d :: rest) false = (d :: (pqGo rest true).1, (pqGo rest true).2) := by
  simp only [pqGo, if_pos hd]

theorem pqGo_numRun : ∀ {ds : List Char} (rest : List Char),
    (∀ c ∈ ds, numChar c = true) →
    pqGo (ds ++ rest) true = (ds ++ (pqGo rest true).1, (pqGo rest true).2) := by
  intro ds
  induction ds with
  | nil => intro rest _; rfl
  | cons d ds' ih =>
    intro rest h
    rw [List.cons_append]
    simp only [pqGo, if_pos (h d (List.mem_cons_self _ _))]
    rw [ih rest (fun c hc => h c (List.mem_cons_of_mem _ hc))]
    rfl

theorem pqGo_ws_digit {x : Char} (rest : List Char) (hx : x.isDigit = true) :
    pqGo ((' ') :: (x :: rest)) true =
      ((' ') :: (pqGo (x :: rest) true).1, (pqGo (x :: rest) true).2) := by
  simp only [pqGo]
  rw [if_neg (by decide : ¬(numChar (' ') = true)),
    if_pos (by decide : (rustIsWs (' ') && true) = true), if_pos hx]

theorem pqGo_stop {x : Char} (rest : List Char) (hx : x.isDigit = false) :
    pqGo ((' ') :: (x :: rest)) true = ([], (' ') :: (x :: rest)) := by
  simp only [pqGo]
  rw [if_neg (by decide : ¬(numChar (' ') = true)),
    if_pos (by decide : (rustIsWs (' ') && true) = true)]
  rw [hx]
  simp

theorem all_numChar_of_digits {l : List Char} (h : l.all Char.isDigit = true) :
    ∀ c ∈ l, numChar c = true :=
  fun c hc => numChar_of_digit (List.all_eq_true.mp h c hc)

theorem pqGo_token {q : List Char} {v : ℚ} (hq : QtyToken q v) {x : Char}
    (rest : List Char) (hx : x.isDigit = false) :
    pqGo (q ++ ((' ') :: (x :: rest))) false = (q, (' ') :: (x :: rest)) := by
  cases hq with
  | int ds h1 h2 =>
    obtain ⟨d, ds', rfl⟩ : ∃ d ds', q = d :: ds' := by
      cases q with
      | nil => exact absurd rfl h1
      | cons d ds' => exact ⟨d, ds', rfl⟩
    rw [List.cons_append,
      pqGo_first _ (numChar_of_digit (List.all_eq_true.mp h2 d (List.mem_cons_self _ _))),
      pqGo_numRun ((' ') :: (x :: rest))
        (fun c hc => all_numChar_of_digits h2 c (List.mem_cons_of_mem _ hc)),
      pqGo_stop rest hx]
    simp
  | dec a b ha1 ha2 hb1 hb2 =>
    obtain ⟨d, a', rfl⟩ : ∃ d a', a = d :: a' := by
      cases a with
      | nil => exact absurd rfl ha1
      | cons d a' => exact ⟨d, a', rfl⟩
    have hrun : ∀ c ∈ a' ++ (('.') :: b), numChar c = true := by
      intro c hc
      rcases List.mem_append.mp hc with hc2 | hc2
      · exact all_numChar_of_digits ha2 c (List.mem_cons_of_mem _ hc2)
      · rcases List.mem_cons.mp hc2 with rfl | hc3
        · decide
        · exact all_numChar_of_digits hb2 c hc3
    simp only [List.cons_append, List.append_assoc]
    rw [pqGo_first _ (numChar_of_digit (List.all_eq_true.mp ha2 d (List.mem_cons_self _ _)))]
    rw [show a' ++ (('.') :: (b ++ ((' ') :: (x :: rest)))) =
      (a' ++ (('.') :: b)) ++ ((' ') :: (x :: rest)) by simp]
    rw [pqGo_numRun ((' ') :: (x :: rest)) hrun, pqGo_stop rest hx]
    simp
  | frac a b ha1 ha2 hb1 hb2 hb0 =>
    obtain ⟨d, a', rfl⟩ : ∃ d a', a = d :: a' := by
      cases a with
      | nil => exact absurd rfl ha1
      | cons d a' => exact ⟨d, a', rfl⟩
    have hrun : ∀ c ∈ a' ++ (('/') :: b), numChar c = true := by
      intro c hc
      rcases List.mem_append.mp hc with hc2 | hc2
      · exact all_numChar_of_digits ha2 c (List.mem_cons_of_mem _ hc2)
      · rcases List.mem_cons.mp hc2 with rfl | hc3
        · decide
        · exact all_numChar_of_digits hb2 c hc3
    simp only [List.cons_append, List.append_assoc]
    rw [pqGo_first _ (numChar_of_digit (List.all_eq_true.mp ha2 d (List.mem_cons_self _ _)))]
    rw [show a' ++ (('/') :: (b ++ ((' ') :: (x :: rest)))) =
      (a' ++ (('/') :: b)) ++ ((' ') :: (x :: rest)) by simp]
    rw [pqGo_numRun ((' ') :: (x :: rest)) hrun, pqGo_stop rest hx]
    simp
  | mixed a b c ha1 ha2 hb1 hb2 hc1 hc2 hc0 =>
    obtain ⟨d, a', rfl⟩ : ∃ d a', a = d :: a' := by
      cases a with
      | nil => exact absurd rfl ha1
      | cons d a' => exact ⟨d, a', rfl⟩
    obtain ⟨e, b', rfl⟩ : ∃ e b', b = e :: b' := by
      cases b with
      | nil => exact absurd rfl hb1
      | cons e b' => exact ⟨e, b', rfl⟩
    have hrun2 : ∀ y ∈ (e :: b') ++ (('/') :: c), numChar y = true := by
      intro y hy
      rcases List.mem_append.mp hy with hy2 | hy2
      · exact all_numChar_of_digits hb2 y hy2
      · rcases List.mem_cons.mp hy2 with rfl | hy3
        · decide
        · exact all_numChar_of_digits hc2 y hy3
    have he : e.isDigit = true := List.all_eq_true.mp hb2 e (List.mem_cons_self _ _)
    simp only [List.cons_append, List.append_assoc]
    rw [pqGo_first _ (numChar_of_digit (List.all_eq_true.mp ha2 d (List.mem_cons_self _ _)))]
    rw [show a' ++ ((' ') :: (e :: (b' ++ (('/') :: (c ++ ((' ') :: (x :: rest))))))) =
      a' ++ (((' ') :: (e :: (b' ++ (('/') :: (c ++ ((' ') :: (x :: rest)))))))) from rfl]
    rw [pqGo_numRun (((' ') :: (e :: (b' ++ (('/') :: (c ++ ((' ') :: (x :: rest))))))))
      (fun y hy => all_numChar_of_digits ha2 y (List.mem_cons_of_mem _ hy))]
    rw [pqGo_ws_digit _ he]
    rw [show e :: (b' ++ (('/') :: (c ++ ((' ') :: (x :: rest))))) =
      ((e :: b') ++ (('/') :: c)) ++ ((' ') :: (x :: rest)) by simp]
    rw [pqGo_numRun ((' ') :: (x :: rest)) hrun2, pqGo_stop rest hx]
    simp

theorem qtyToken_ne_nil {q : List Char} {v : ℚ} (hq : QtyToken q v) : q ≠ [] := by
  cases hq with
  | int ds h1 h2 => exact h1
  | dec a b ha1 ha2 hb1 hb2 => simp
  | frac a b ha1 ha2 hb1 hb2 hb0 => simp
  | mixed a b c ha1 ha2 hb1 hb2 hc1 hc2 hc0 => simp

theorem parse_quantity_token {q : List Char} {v : ℚ} (hq : QtyToken q v) {x : Char}
    (rest : List Char) (hx : x.isDigit = false) :
    parse_quantity (q ++ ((' ') :: (x :: rest))) = (v, (' ') :: (x :: rest)) := by
  obtain ⟨d, q', hdq⟩ : ∃ d q', q = d :: q' := by
    cases q with
    | nil => exact absurd rfl (qtyToken_ne_nil hq)
    | cons d q' => exact ⟨d, q', rfl⟩
  have hd : d.isDigit = true := qtyToken_head_digit hq d (by rw [hdq]; rfl)
  simp only [parse_quantity]
  rw [hdq, List.cons_append, List.dropWhile_cons, not_ws_of_digit d hd]
  rw [show d :: (q' ++ ((' ') :: (x :: rest))) = (d :: q') ++ ((' ') :: (x :: rest)) from rfl]
  rw [← hdq]
  rw [if_neg (by decide : ¬(false = true))]
  rw [pqGo_token hq rest hx]
  have hne : q.isEmpty = false := by
    rw [hdq]
    rfl
  simp [hne, parse_number_string_token hq]

theorem unitsFactA : unitsList.all (fun t => unitsList.all (fun u =>
    (t == u) || !(t.toList.isPrefixOf u.toList) ||
      (match u.toList.get? t.toList.length with
       | some c => !(rustIsWs c) && !(c == (','))
       | none => false))) = true := by decide

theorem unitsFactB : unitsList.all (fun t => unitsList.all (fun u =>
    !((u.toList ++ [(' ')]).isPrefixOf t.toList))) = true := by decide

theorem unitsFactU : unitsList.all (fun u => !(u.toList.isEmpty) &&
    u.toList.all (fun c => (utf8Len c == 1) && (rustCharLower c == [c]))) = true := by decide

theorem unitsFactEnds : unitsList.all (fun u =>
    (match u.toList.head? with
     | some c => !(rustIsWs c)
     | none => false) &&
    (match u.toList.getLast? with
     | some c => !(rustIsWs c)
     | none => false)) = true := by decide

theorem unitsFactHead : unitsList.all (fun u =>
    (match u.toList with
     | c :: _ => !(c.isDigit)
     | [] => false)) = true := by decide

theorem factA_spec (t : String) (ht : t ∈ unitsList) (u : String) (hu : u ∈ unitsList)
    (hne : t ≠ u) (hpre : t.toList.isPrefixOf u.toList = true) :
    ∃ c, u.toList.get? t.toList.length = some c ∧ rustIsWs c = false ∧ c ≠ (',') := by
  have h2 := List.all_eq_true.mp (List.all_eq_true.mp unitsFactA t ht) u hu
  rw [Bool.or_eq_true, Bool.or_eq_true] at h2
  rcases h2 with (h3 | h3) | h3
  · exact absurd (eq_of_beq h3) hne
  · rw [Bool.not_eq_true', hpre] at h3
    exact Bool.noConfusion h3
  · cases hg : u.toList.get? t.toList.length with
    | none =>
      rw [hg] at h3
      exact Bool.noConfusion h3
    | some c =>
      rw [hg] at h3
      rw [Bool.and_eq_true] at h3
      refine ⟨c, rfl, ?_, ?_⟩
      · have h4 := h3.1
        rw [Bool.not_eq_true'] at h4
        exact h4
      · have h4 := h3.2
        rw [Bool.not_eq_true'] at h4
        exact ne_of_beq_false h4

theorem factB_spec (t : String) (ht : t ∈ unitsList) (u : String) (hu : u ∈ unitsList) :
    ¬((u.toList ++ [(' ')]).isPrefixOf t.toList = true) := by
  have h2 := List.all_eq_true.mp (List.all_eq_true.mp unitsFactB t ht) u hu
  rw [Bool.not_eq_true'] at h2
  intro hc
  rw [hc] at h2
  exact Bool.noConfusion h2

theorem unit_chars (u : String) (hu : u ∈ unitsList) :
    ∀ c ∈ u.toList, utf8Len c = 1 ∧ rustCharLower c = [c] := by
  have h2 := List.all_eq_true.mp unitsFactU u hu
  rw [Bool.and_eq_true] at h2
  intro c hc
  have h3 := List.all_eq_true.mp h2.2 c hc
  rw [Bool.and_eq_true] at h3
  exact ⟨eq_of_beq h3.1, eq_of_beq h3.2⟩

theorem unit_head_nonws (u : String) (hu : u ∈ unitsList) :
    ∀ c, u.toList.head? = some c → rustIsWs c = false := by
  have h2 := List.all_eq_true.mp unitsFactEnds u hu
  rw [Bool.and_eq_true] at h2
  intro c hc
  have h3 := h2.1
  rw [hc] at h3
  rw [Bool.not_eq_true'] at h3
  exact h3

theorem unit_last_nonws (u : String) (hu : u ∈ unitsList) :
    ∀ c, u.toList.getLast? = some c → rustIsWs c = false := by
  have h2 := List.all_eq_true.mp unitsFactEnds u hu
  rw [Bool.and_eq_true] at h2
  intro c hc
  have h3 := h2.2
  rw [hc] at h3
  rw [Bool.not_eq_true'] at h3
  exact h3

theorem unit_ne_nil (u : String) (hu : u ∈ unitsList) : u.toList ≠ [] := by
  have h2 := List.all_eq_true.mp unitsFactU u hu
  rw [Bool.and_eq_true] at h2
  intro hc
  rw [Bool.not_eq_true'] at h2
  have := h2.1
  rw [hc] at this
  exact Bool.noConfusion this

theorem unit_head_not_digit (u : String) (hu : u ∈ unitsList) :
    ∀ c, u.toList.head? = some c → c.isDigit = false := by
  have h2 := List.all_eq_true.mp unitsFactHead u hu
  intro c hc
  cases hl : u.toList with
  | nil =>
    rw [hl] at hc
    exact Option.noConfusion hc
  | cons d rest =>
    rw [hl] at hc h2
    injection hc with hc2
    subst hc2
    rw [Bool.not_eq_true'] at h2
    exact h2

theorem byteSplit_ascii : ∀ (a : List Char), (∀ c ∈ a, utf8Len c = 1) →
    ∀ rest, byteSplit (a ++ rest) a.length = some (a, rest) := by
  intro a
  induction a with
  | nil =>
    intro _ rest
    simp only [List.nil_append, List.length_nil]
    cases rest with
    | nil => rfl
    | cons c cs => rfl
  | cons c a' ih =>
    intro h rest
    rw [List.cons_append, List.length_cons]
    simp only [byteSplit]
    rw [h c (List.mem_cons_self _ _)]
    rw [if_pos (by omega : 1 ≤ a'.length + 1)]
    rw [show a'.length + 1 - 1 = a'.length from rfl]
    rw [ih (fun x hx => h x (List.mem_cons_of_mem _ hx)) rest]
    rfl

theorem parse_unit_go_hits (u : String) (hu : u ∈ unitsList) (tail tailLow : List Char)
    (htail : (tail = [] ∧ tailLow = []) ∨
      (∃ nm lnm, tail = (' ') :: nm ∧ tailLow = (' ') :: lnm)) :
    ∀ ts : List String, (∀ t ∈ ts, t ∈ unitsList) → u ∈ ts →
      parse_unit_go (u.toList ++ tail) (u.toList ++ tailLow) ts =
        some (byteSplit (u.toList ++ tail) u.toList.length) := by
  intro ts
  induction ts with
  | nil =>
    intro _ hmem
    exact absurd hmem (List.not_mem_nil u)
  | cons t ts' ih =>
    intro hsub hmem
    simp only [parse_unit_go]
    by_cases hteq : t = u
    · subst hteq
      rw [if_pos (List.isPrefixOf_iff_prefix.mpr (List.prefix_append _ _))]
      have hbo : boundaryOk ((t.toList ++ tail).get? t.toList.length) = true := by
        rcases htail with ⟨rfl, rfl⟩ | ⟨nm, lnm, rfl, rfl⟩
        · have hnone : (t.toList ++ ([] : List Char)).get? t.toList.length = none := by
            rw [List.append_nil]
            exact List.get?_eq_none.mpr (le_refl _)
          rw [hnone]
          rfl
        · have hsp : (t.toList ++ ((' ') :: nm)).get? t.toList.length = some (' ') := by
            rw [List.get?_append_right (le_refl _), Nat.sub_self]
            rfl
          rw [hsp]
          decide
      rw [if_pos hbo]
    · have htu : t ∈ unitsList := hsub t (List.mem_cons_self _ _)
      have hmem' : u ∈ ts' := by
        rcases List.mem_cons.mp hmem with he | hm
        · exact absurd he.symm hteq
        · exact hm
      have hrec := ih (fun t' ht' => hsub t' (List.mem_cons_of_mem _ ht')) hmem'
      by_cases hpre : t.toList.isPrefixOf (u.toList ++ tailLow) = true
      · have hp : t.toList <+: (u.toList ++ tailLow) := List.isPrefixOf_iff_prefix.mp hpre
        rcases le_or_lt t.toList.length u.toList.length with hle | hgt
        · have ht2 : t.toList = u.toList.take t.toList.length := by
            calc t.toList = (u.toList ++ tailLow).take t.toList.length :=
                  List.prefix_iff_eq_take.mp hp
              _ = u.toList.take t.toList.length ++ tailLow.take (t.toList.length - u.toList.length) :=
                  List.take_append_eq_append_take
              _ = u.toList.take t.toList.length := by
                  rw [Nat.sub_eq_zero_of_le hle, List.take_zero, List.append_nil]
          have hpu : t.toList <+: u.toList := List.prefix_iff_eq_take.mpr ht2
          have hlt : t.toList.length < u.toList.length := by
            rcases lt_or_eq_of_le hle with hl2 | hl2
            · exact hl2
            · exfalso
              apply hteq
              have he2 := hpu.eq_of_length hl2
              cases t with
              | mk dt =>
                cases u with
                | mk du => exact congrArg String.mk he2
          obtain ⟨c, hc1, hc2, hc3⟩ :=
            factA_spec t htu u hu hteq (List.isPrefixOf_iff_prefix.mpr hpu)
          rw [if_pos hpre]
          have hb : (u.toList ++ tail).get? t.toList.length = some c := by
            rw [List.get?_append hlt]
            exact hc1
          rw [hb]
          have hbo : boundaryOk (some c) = false := by
            simp [boundaryOk, hc2, hc3]
          rw [hbo]
          rw [if_neg (by decide : ¬(false = true))]
          exact hrec
        · rcases htail with ⟨rfl, rfl⟩ | ⟨nm, lnm, rfl, rfl⟩
          · exfalso
            have := hp.length_le
            rw [List.length_append, List.length_nil] at this
            omega
          · exfalso
            have ht2 : t.toList.take (u.toList.length + 1) = u.toList ++ [(' ')] := by
              calc t.toList.take (u.toList.length + 1)
                  = ((u.toList ++ ((' ') :: lnm)).take t.toList.length).take
                      (u.toList.length + 1) := by
                    rw [← List.prefix_iff_eq_take.mp hp]
                _ = (u.toList ++ ((' ') :: lnm)).take
                      (min (u.toList.length + 1) t.toList.length) := List.take_take _ _ _
                _ = (u.toList ++ ((' ') :: lnm)).take (u.toList.length + 1) := by
                    rw [min_eq_left (by omega)]
                _ = u.toList.take (u.toList.length + 1) ++
                      ((' ') :: lnm).take (u.toList.length + 1 - u.toList.length) :=
                    List.take_append_eq_append_take
                _ = u.toList ++ [(' ')] := by
                    rw [List.take_all_of_le (by omega), Nat.add_sub_cancel_left]
                    rfl
            have hpre2 : (u.toList ++ [(' ')]).isPrefixOf t.toList = true := by
              rw [List.isPrefixOf_iff_prefix, List.prefix_iff_eq_take, List.length_append,
                List.length_singleton]
              exact ht2.symm
            exact factB_spec t htu u hu hpre2
      · rw [if_neg hpre]
        exact hrec

theorem parse_unitAux_hit {l : List Char} {r : Option (List Char × List Char)}
    (hgo : parse_unit_go (rustTrim l) (rustToLower (rustTrim l)) unitsList = some r) :
    ∀ fuel, parse_unitAux fuel l = r := by
  intro fuel
  cases fuel with
  | zero =>
    show (match parse_unit_go (rustTrim l) (rustToLower (rustTrim l)) unitsList with
      | some r => r
      | none => some ([], rustTrim l)) = r
    rw [hgo]
  | succ f0 =>
    show (match parse_unit_go (rustTrim l) (rustToLower (rustTrim l)) unitsList with
      | some r => r
      | none =>
        match rustTrim l with
        | '(' :: _ =>
          match firstIdxOf (')') (rustTrim l) with
          | some j => parse_unitAux f0 (trimLeft ((rustTrim l).drop (j + 1)))
          | none => some ([], rustTrim l)
        | _ => some ([], rustTrim l)) = r
    rw [hgo]

theorem parse_unit_unit (u : String) (hu : u ∈ unitsList) (tail tailLow : List Char)
    (htail : (tail = [] ∧ tailLow = []) ∨
      (∃ nm lnm, tail = (' ') :: nm ∧ tailLow = (' ') :: lnm))
    (hts : rustTrim (u.toList ++ tail) = u.toList ++ tail)
    (hlow : rustToLower (u.toList ++ tail) = u.toList ++ tailLow) :
    parse_unit (u.toList ++ tail) = some (u.toList, tail) := by
  rw [parse_unit]
  apply parse_unitAux_hit
  rw [hts, hlow]
  rw [parse_unit_go_hits u hu tail tailLow htail unitsList (fun t ht => ht) hu]
  rw [byteSplit_ascii u.toList (fun c hc => (unit_chars u hu c hc).1) tail]

theorem trimRight_eq_self {l : List Char}
    (h2 : ∀ c, l.getLast? = some c → rustIsWs c = false) : trimRight l = l := by
  rcases List.eq_nil_or_concat l with rfl | ⟨l0, e, hl⟩
  · rfl
  · rw [List.concat_eq_append] at hl
    subst hl
    exact trimRight_concat_nonws _ (h2 e (by simp))

theorem trimLeft_ws_cons (l : List Char) : trimLeft ((' ') :: l) = trimLeft l := by
  rw [trimLeft, trimLeft, List.dropWhile_cons]
  rw [show rustIsWs (' ') = true by decide]
  simp

theorem rustToLower_unit_append (u : String) (hu : u ∈ unitsList) (r : List Char) :
    rustToLower (u.toList ++ r) = u.toList ++ rustToLower r := by
  rw [rustToLower, List.flatMap_append]
  rw [show (u.toList).flatMap rustCharLower = u.toList from
    flatMap_stable (fun c hc => (unit_chars u hu c hc).2)]
  rfl

theorem rustToLower_ws_cons (l : List Char) :
    rustToLower ((' ') :: l) = (' ') :: rustToLower l := by
  rw [rustToLower, List.flatMap_cons]
  rfl

theorem unit_decomp (u : String) (hu : u ∈ unitsList) :
    ∃ x us, u.toList = x :: us ∧ x.isDigit = false ∧ rustIsWs x = false := by
  cases hl : u.toList with
  | nil => exact absurd hl (unit_ne_nil u hu)
  | cons x us =>
    exact ⟨x, us, rfl, unit_head_not_digit u hu x (by rw [hl]; rfl),
      unit_head_nonws u hu x (by rw [hl]; rfl)⟩

theorem unit_trim (u : String) (hu : u ∈ unitsList) : rustTrim u.toList = u.toList :=
  rustTrim_eq_self (unit_head_nonws u hu) (unit_last_nonws u hu)

theorem parse_ingredient_line (q : List Char) (v : ℚ) (u : String) (name : List Char)
    (hq : QtyToken q v) (hu : u ∈ unitsList) (hname : rustTrim name = name)
    (hdec : decodeHtmlChars (q ++ ((' ') :: (u.toList ++ ((' ') :: name)))) =
      q ++ ((' ') :: (u.toList ++ ((' ') :: name)))) :
    parse_ingredient ((q ++ ((' ') :: (u.toList ++ ((' ') :: name)))).asString) =
      some ⟨v, u, name.asString⟩ := by
  obtain ⟨x, us, hxu, hxd, hxw⟩ := unit_decomp u hu
  obtain ⟨d, q', hdq⟩ : ∃ d q', q = d :: q' := by
    cases hql : q with
    | nil => exact absurd hql (qtyToken_ne_nil hq)
    | cons d q' => exact ⟨d, q', rfl⟩
  have hd : d.isDigit = true := qtyToken_head_digit hq d (by rw [hdq]; rfl)
  rw [parse_ingredient]
  rw [show ((q ++ ((' ') :: (u.toList ++ ((' ') :: name)))).asString).toList =
    q ++ ((' ') :: (u.toList ++ ((' ') :: name))) from rfl]
  by_cases hnil : name = []
  · subst hnil
    have htrim : rustTrim (decodeHtmlChars (q ++ ((' ') :: (u.toList ++ ((' ') :: []))))) =
        q ++ ((' ') :: u.toList) := by
      rw [hdec]
      have hshape : q ++ ((' ') :: (u.toList ++ ((' ') :: ([] : List Char)))) =
          (q ++ ((' ') :: u.toList)) ++ [(' ')] := by simp
      rw [hshape, rustTrim]
      rw [show trimLeft ((q ++ ((' ') :: u.toList)) ++ [(' ')]) =
          (q ++ ((' ') :: u.toList)) ++ [(' ')] from by
        rw [hdq]
        exact trimLeft_cons_nonws _ (not_ws_of_digit d hd)]
      rw [trimRight_concat_ws _ (by decide)]
      apply trimRight_eq_self
      intro c hc
      rw [getLast?_append_cons_ne q (' ') (unit_ne_nil u hu)] at hc
      exact unit_last_nonws u hu c hc
    have hqr : parse_quantity (q ++ ((' ') :: u.toList)) = (v, (' ') :: u.toList) := by
      rw [hxu]
      exact parse_quantity_token hq us hxd
    have ht2 : rustTrim ((' ') :: u.toList) = u.toList := by
      rw [rustTrim, trimLeft_ws_cons]
      rw [(trim_stable_parts (unit_trim u hu)).1]
      exact (trim_stable_parts (unit_trim u hu)).2
    have hpu2 : parse_unit (rustTrim ((' ') :: u.toList)) = some (u.toList, []) := by
      rw [ht2]
      have hps := parse_unit_unit u hu [] [] (Or.inl ⟨rfl, rfl⟩)
        (by rw [List.append_nil]; exact unit_trim u hu)
        (by rw [List.append_nil]
            exact flatMap_stable (fun c hc => (unit_chars u hu c hc).2))
      rw [List.append_nil] at hps
      exact hps
    simp only [parseIngredientChars, htrim, hqr, hpu2]
    rfl
  · obtain ⟨n0, e, hne0, hwe⟩ := trim_stable_last hname hnil
    have hunne : u.toList ++ ((' ') :: name) ≠ [] := by simp
    have hgl : ∀ c, (q ++ ((' ') :: (u.toList ++ ((' ') :: name)))).getLast? = some c →
        rustIsWs c = false := by
      intro c hc
      rw [getLast?_append_cons_ne q (' ') hunne,
        getLast?_append_cons_ne u.toList (' ') hnil] at hc
      rw [hne0] at hc
      rw [List.getLast?_append] at hc
      rw [show ([e] : List Char).getLast? = some e from rfl] at hc
      injection hc with hc2
      rw [← hc2]
      exact hwe
    have htrim : rustTrim (decodeHtmlChars (q ++ ((' ') :: (u.toList ++ ((' ') :: name))))) =
        q ++ ((' ') :: (u.toList ++ ((' ') :: name))) := by
      rw [hdec]
      apply rustTrim_eq_self
      · intro c hc
        rw [hdq] at hc
        rw [head?_append_cons] at hc
        injection hc with hc2
        rw [← hc2]
        exact not_ws_of_digit d hd
      · exact hgl
    have hqr : parse_quantity (q ++ ((' ') :: (u.toList ++ ((' ') :: name)))) =
        (v, (' ') :: (u.toList ++ ((' ') :: name))) := by
      rw [hxu]
      rw [show (x :: us) ++ ((' ') :: name) = x :: (us ++ ((' ') :: name)) from rfl]
      exact parse_quantity_token hq (us ++ ((' ') :: name)) hxd
    have hY : rustTrim (u.toList ++ ((' ') :: name)) = u.toList ++ ((' ') :: name) := by
      apply rustTrim_eq_self
      · intro c hc
        rw [hxu] at hc
        rw [show (x :: us) ++ ((' ') :: name) = x :: (us ++ ((' ') :: name)) from rfl] at hc
        injection hc with hc2
        rw [← hc2]
        exact hxw
      · intro c hc
        rw [getLast?_append_cons_ne u.toList (' ') hnil] at hc
        rw [hne0, List.getLast?_append] at hc
        rw [show ([e] : List Char).getLast? = some e from rfl] at hc
        injection hc with hc2
        rw [← hc2]
        exact hwe
    have ht2 : rustTrim ((' ') :: (u.toList ++ ((' ') :: name))) =
        u.toList ++ ((' ') :: name) := by
      rw [rustTrim, trimLeft_ws_cons]
      rw [(trim_stable_parts hY).1]
      exact (trim_stable_parts hY).2
    have hpu2 : parse_unit (rustTrim ((' ') :: (u.toList ++ ((' ') :: name)))) =
        some (u.toList, (' ') :: name) := by
      rw [ht2]
      exact parse_unit_unit u hu ((' ') :: name) ((' ') :: rustToLower name)
        (Or.inr ⟨name, rustToLower name, rfl, rfl⟩) hY
        (by rw [rustToLower_unit_append u hu, rustToLower_ws_cons])
    have htn : rustTrim ((' ') :: name) = name := by
      rw [rustTrim, trimLeft_ws_cons, (trim_stable_parts hname).1]
      exact (trim_stable_parts hname).2
    simp only [parseIngredientChars, htrim, hqr, hpu2, htn]
    rfl

set_option maxHeartbeats 2000000 in
/-- C1: for every line q-token SP unit SP name — with q an integer, decimal,
simple fraction or mixed number, unit a vocabulary term (followed by
whitespace), the name already trimmed and the line containing no ampersand
(hence no HTML entity of any form: entity decoding is the identity on it,
for the crate as for the model) — parse_ingredient returns exactly the
numeric value of q, the unit as written, and the name; together with the
three cited examples, whose middle one parses the range 3-4 as 3 and whose
last one skips the parenthesized aside. -/
theorem c1_line_grammar :
    (∀ (q : List Char) (v : ℚ) (u : String) (name : List Char),
      QtyToken q v → u ∈ unitsList → rustTrim name = name →
      ('&') ∉ q ++ ((' ') :: (u.toList ++ ((' ') :: name))) →
      parse_ingredient ((q ++ ((' ') :: (u.toList ++ ((' ') :: name)))).asString) =
        some ⟨v, u, name.asString⟩) ∧
    parse_ingredient ("1 1/2 cups sugar") = some ⟨3/2, "cups", "sugar"⟩ ∧
    parse_ingredient ("3-4 cloves garlic") = some ⟨3, "cloves", "garlic"⟩ ∧
    parse_ingredient ("1 (15 oz) can beans") = some ⟨1, "can", "beans"⟩ :=
  ⟨fun q v u name hq hu hn hamp =>
      parse_ingredient_line q v u name hq hu hn (decodeHtmlChars_no_amp _ hamp),
    by decide, by decide, by decide⟩

set_option maxHeartbeats 2000000 in
/-- C1 witness: the universal statement applied at the line "2 cups flour"
(integer token "2", vocabulary unit "cups", name "flour"). -/
theorem c1_witness :
    parse_ingredient (((['2'] : List Char) ++
        ((' ') :: (("cups").toList ++ ((' ') :: ("flour").toList)))).asString) =
      some ⟨((digitsVal ['2'] : ℚ)), "cups", (("flour").toList).asString⟩ :=
  c1_line_grammar.1 ['2'] ((digitsVal ['2'] : ℚ)) ("cups") (("flour").toList)
    (QtyToken.int ['2'] (by decide) (by decide)) (by decide) (by decide) (by decide)
